import Mathlib

/-!
# Verification of the gledki template manager (kberov/gledki)

Shallow embedding of the directive-resolution core of `src/gledki.go`
(package `gledki`) and, for the variant-equivalence claim, of the older
single-root variant (package `tmpls`, `src/unnamed/part_001`).

Modelling conventions:
* Go strings are modelled as `List Char` (`Str`), so every operation is
  an executable structural function.
* The file system is a finite map from paths to contents plus a list of
  paths on which `os.WriteFile` fails (`FS`).  A path is readable iff it
  is present in the map.
* `filepath.Join root p` is modelled as `root ++ "/" ++ p`.  Go's `Join`
  additionally cleans the path; the roots stored in `Gledki.Roots` are
  produced by `findRoots` (absolute, clean), and template names are used
  as written, so no cleaning occurs on the paths the claims are about.
* The mutable maps of the Go struct (`files`, `compiled`) and the disk
  are threaded explicitly.  `Caches` holds the raw-file cache `files`
  together with `rawReads`, a trace of the `os.ReadFile` calls performed
  by `Gledki.LoadFile` (used to state "the second call does not re-read
  the raw source file").  The compiled map and the file system are only
  touched at the `Compile` level, which the types make explicit.
* `runtime.Caller`-based stack inspection in
  `detectInludeRecursionLimit` is modelled by an explicit depth counter:
  the guard, called from the include pass at include-call depth `d`
  (the main template being processed at depth 1), sees the function at
  `1 + IncludeLimit` stack frames above itself be `include` again
  exactly when `d ≥ IncludeLimit + 1`.
* `Logger.Panic`/`panic` aborts are modelled by the `GRes.fatal`
  constructor, distinct from the normal error return `GRes.err`.
* The external collaborator `fasttemplate` is modelled by
  `ftExecStd` (`ExecuteStringStd`: non-strict, unknown placeholders kept
  verbatim) and `ftExecStash` (`Execute`: strict, unknown placeholders
  dropped; values may be literal text or stateful tag functions).
  Both follow the loop of `fasttemplate.ExecuteFunc`: find the start
  tag, then the first end tag after it; if the end tag is missing, emit
  the start tag and the remainder verbatim.
-/

/-- Go `string`, modelled as a list of characters. -/
abbrev Str := List Char

/-- Association-list lookup; models reading from a Go `map[string]string`. -/
def lookupA : List (Str × Str) → Str → Option Str
  | [], _ => none
  | (k, v) :: rest, key => if k = key then some v else lookupA rest key

/-- Association-list insert-or-replace; models Go `m[k] = v`. -/
def insertA : List (Str × Str) → Str → Str → List (Str × Str)
  | [], k, v => [(k, v)]
  | (k', v') :: rest, k, v =>
    if k' = k then (k, v) :: rest else (k', v') :: insertA rest k v

/-- Boolean prefix test on character lists; models Go `strings.HasPrefix s pre`
as `isPrefixOfA pre s`. -/
def isPrefixOfA : Str → Str → Bool
  | [], _ => true
  | _ :: _, [] => false
  | a :: as, b :: bs => a = b && isPrefixOfA as bs

/-- Boolean suffix test; models Go `strings.HasSuffix s suffix`. -/
def endsWithA (s suffix : Str) : Bool :=
  isPrefixOfA suffix.reverse s.reverse

/-- Index of the first occurrence of `pat` in `s`; models `bytes.Index`
(and the scanning done by `strings.Replace`). -/
def subIndex (pat : Str) (s : Str) : Option Nat :=
  if isPrefixOfA pat s then some 0
  else
    match s with
    | [] => none
    | _ :: rest => (subIndex pat rest).map (fun n => n + 1)

/-- Go `strings.TrimSuffix text "\n"`: drop one trailing newline if present. -/
def trimNL (s : Str) : Str :=
  if endsWithA s [.ofNat 10] then s.dropLast else s

/-- Go `strings.Trim text "\n"`: drop all leading and trailing newlines
(used by the `tmpls` variant). -/
def trimBothNL (s : Str) : Str :=
  ((s.dropWhile (fun c => c = Char.ofNat 10)).reverse.dropWhile
    (fun c => c = Char.ofNat 10)).reverse

/-- Go `strings.Replace s old new 1` for nonempty `old`: replace the first
occurrence only. -/
def replaceFirst (s old new : Str) : Str :=
  match subIndex old s with
  | none => s
  | some n => s.take n ++ new ++ s.drop (n + old.length)

theorem isPrefixOfA_length {pat s : Str} (h : isPrefixOfA pat s = true) :
    pat.length ≤ s.length := by
  induction pat generalizing s with
  | nil => simp
  | cons a as ih =>
    cases s with
    | nil => simp [isPrefixOfA] at h
    | cons b bs =>
      simp only [isPrefixOfA, Bool.and_eq_true, decide_eq_true_eq] at h
      simpa [List.length_cons, Nat.succ_le_succ_iff] using ih h.2

theorem subIndex_bound {pat s : Str} {n : Nat} (h : subIndex pat s = some n) :
    n + pat.length ≤ s.length := by
  induction s generalizing n with
  | nil =>
    unfold subIndex at h
    split at h
    · cases h
      have := isPrefixOfA_length (by assumption)
      simp only [List.length_nil, Nat.le_zero, List.length_eq_zero] at this
      simp [this]
    · cases h
  | cons c rest ih =>
    unfold subIndex at h
    split at h
    · cases h
      have := isPrefixOfA_length (by assumption)
      simp only [List.length_cons] at this ⊢
      omega
    · cases hsub : subIndex pat rest with
      | none => simp [hsub] at h
      | some m =>
        simp [hsub] at h
        have := ih hsub
        simp only [List.length_cons]
        omega

/-- Go regexp `\s` (RE2, ASCII): `[\t\n\v\f\r ]`. -/
def isSpaceGo (c : Char) : Bool :=
  c == ' ' || c == Char.ofNat 9 || c == Char.ofNat 10 || c == Char.ofNat 11 ||
    c == Char.ofNat 12 || c == Char.ofNat 13

/-- Character class `[/\.\-\w]` of the gledki directive path grammar. -/
def isPathChar (c : Char) : Bool :=
  c == '/' || c == '.' || c == '-' || c == '_' || c.isAlpha || c.isDigit

/-- Character class `[/\.\w]` of the tmpls directive path grammar (no hyphen). -/
def isPathCharT (c : Char) : Bool :=
  c == '/' || c == '.' || c == '_' || c.isAlpha || c.isDigit

/-- Match the literal `pre` at the start of `s` (regexp `\Qpre\E`); on success
return the remainder. -/
def dropPrefixQ : Str → Str → Option Str
  | [], s => some s
  | _ :: _, [] => none
  | p :: ps, c :: cs => if p = c then dropPrefixQ ps cs else none

theorem dropPrefixQ_length {pre s r : Str} (h : dropPrefixQ pre s = some r) :
    s.length = pre.length + r.length := by
  induction pre generalizing s with
  | nil => cases h; simp
  | cons p ps ih =>
    cases s with
    | nil => cases h
    | cons c cs =>
      unfold dropPrefixQ at h
      split at h
      · have := ih h
        simp [this, List.length_cons]
        omega
      · cases h

theorem length_dropWhileA_le (p : Char → Bool) (l : Str) :
    (l.dropWhile p).length ≤ l.length :=
  (List.dropWhile_suffix p).sublist.length_le

/-- The `[\r]?[\n]?` tail of the gledki `wrapper` directive regex: the
greedily matched text and the remainder. -/
def wrapTail : Str → Str × Str
  | [] => ([], [])
  | [c] =>
    if c = Char.ofNat 13 || c = Char.ofNat 10 then ([c], []) else ([], [c])
  | c :: d :: rest =>
    if c = Char.ofNat 13 then
      if d = Char.ofNat 10 then ([c, d], rest) else ([c], d :: rest)
    else if c = Char.ofNat 10 then ([c], d :: rest)
    else ([], c :: d :: rest)

theorem wrapTail_length (s : Str) : (wrapTail s).2.length ≤ s.length := by
  match s with
  | [] => simp [wrapTail]
  | [c] =>
    simp only [wrapTail]
    split <;> simp
  | c :: d :: rest =>
    simp only [wrapTail]
    split
    · split <;> simp only [List.length_cons] <;> omega
    · split <;> simp only [List.length_cons] <;> omega

/-- Try to match the gledki `wrapper` directive
`\Qop\Ewrapper\s+([/\.\-\w]+)\Qcl\E[\r]?[\n]?` at the start of `s`.
Returns (matched text = regex group 1, path = group 2, remainder). -/
def matchWrapAt (op cl : Str) (s : Str) : Option (Str × Str × Str) :=
  match dropPrefixQ (op ++ ("wrapper").toList) s with
  | none => none
  | some s1 =>
    if (s1.takeWhile isSpaceGo).isEmpty then none
    else if ((s1.dropWhile isSpaceGo).takeWhile isPathChar).isEmpty then none
    else
      match dropPrefixQ cl ((s1.dropWhile isSpaceGo).dropWhile isPathChar) with
      | none => none
      | some s4 =>
        some (op ++ ("wrapper").toList ++ s1.takeWhile isSpaceGo ++
            (s1.dropWhile isSpaceGo).takeWhile isPathChar ++ cl ++ (wrapTail s4).1,
          (s1.dropWhile isSpaceGo).takeWhile isPathChar,
          (wrapTail s4).2)

/-- First match of the `wrapper` directive regex
(`regexp.FindStringSubmatch`): scan start positions left to right. -/
def findWrap (op cl : Str) : Str → Option (Str × Str)
  | [] => none
  | c :: rest =>
    match matchWrapAt op cl (c :: rest) with
    | some (dir, ph, _) => some (dir, ph)
    | none => findWrap op cl rest

theorem matchWrapAt_after_length {op cl s dir ph after : Str}
    (h : matchWrapAt op cl s = some (dir, ph, after)) : after.length < s.length := by
  unfold matchWrapAt at h
  split at h
  · cases h
  · next s1 hdrop =>
    have hs1 : s.length = (op ++ ("wrapper").toList).length + s1.length :=
      dropPrefixQ_length hdrop
    split at h
    · cases h
    · split at h
      · cases h
      · split at h
        · cases h
        · next s4 hdrop2 =>
          have hs4 : ((s1.dropWhile isSpaceGo).dropWhile isPathChar).length
              = cl.length + s4.length := dropPrefixQ_length hdrop2
          have h2 : (s1.dropWhile isSpaceGo).length ≤ s1.length :=
            length_dropWhileA_le _ _
          have h3 : ((s1.dropWhile isSpaceGo).dropWhile isPathChar).length
              ≤ (s1.dropWhile isSpaceGo).length := length_dropWhileA_le _ _
          have h5 : after.length ≤ s4.length := by
            simp only [Option.some.injEq, Prod.mk.injEq] at h
            obtain ⟨-, -, rfl⟩ := h
            exact wrapTail_length s4
          have hop : 7 ≤ (op ++ ("wrapper").toList).length := by
            simp [List.length_append]
          omega

/-- Fuel-indexed scan for all non-overlapping `wrapper` directive matches,
left to right.  The fuel is a structural-recursion device only: every step
advances by at least one character (`matchWrapAt_after_length`), so a fuel
of the input length never runs out. -/
def findAllWrapsFuel (op cl : Str) : Nat → Str → List (Str × Str)
  | 0, _ => []
  | _ + 1, [] => []
  | fuel + 1, c :: rest =>
    match matchWrapAt op cl (c :: rest) with
    | some x => (x.1, x.2.1) :: findAllWrapsFuel op cl fuel x.2.2
    | none => findAllWrapsFuel op cl fuel rest

/-- All non-overlapping matches of the `wrapper` directive regex, left to
right (`regexp.FindAllStringSubmatch` with n = -1); used to state "exactly
one / more than one wrapper directive". -/
def findAllWraps (op cl : Str) (s : Str) : List (Str × Str) :=
  findAllWrapsFuel op cl s.length s

/-- Try to match the gledki `include` directive
`\Qop\E(include\s+([/\.\-\w]+))\Qcl\E` at the start of `s`.  Returns
(group 1 = `include…path`, group 2 = path, remainder after the match). -/
def matchIncludeAt (op cl : Str) (s : Str) : Option (Str × Str × Str) :=
  match dropPrefixQ (op ++ ("include").toList) s with
  | none => none
  | some s1 =>
    if (s1.takeWhile isSpaceGo).isEmpty then none
    else if ((s1.dropWhile isSpaceGo).takeWhile isPathChar).isEmpty then none
    else
      match dropPrefixQ cl ((s1.dropWhile isSpaceGo).dropWhile isPathChar) with
      | none => none
      | some s4 =>
        some (("include").toList ++ s1.takeWhile isSpaceGo ++
            (s1.dropWhile isSpaceGo).takeWhile isPathChar,
          (s1.dropWhile isSpaceGo).takeWhile isPathChar,
          s4)

theorem matchIncludeAt_after_length {op cl s m1 m2 after : Str}
    (h : matchIncludeAt op cl s = some (m1, m2, after)) : after.length < s.length := by
  unfold matchIncludeAt at h
  split at h
  · cases h
  · next s1 hdrop =>
    have hs1 : s.length = (op ++ ("include").toList).length + s1.length :=
      dropPrefixQ_length hdrop
    split at h
    · cases h
    · split at h
      · cases h
      · split at h
        · cases h
        · next s4 hdrop2 =>
          have hs4 : ((s1.dropWhile isSpaceGo).dropWhile isPathChar).length
              = cl.length + s4.length := dropPrefixQ_length hdrop2
          have h2 : (s1.dropWhile isSpaceGo).length ≤ s1.length :=
            length_dropWhileA_le _ _
          have h3 : ((s1.dropWhile isSpaceGo).dropWhile isPathChar).length
              ≤ (s1.dropWhile isSpaceGo).length := length_dropWhileA_le _ _
          have h5 : after = s4 := by
            simp only [Option.some.injEq, Prod.mk.injEq] at h
            exact h.2.2.symm
          have hop : 7 ≤ (op ++ ("include").toList).length := by
            simp [List.length_append]
          subst h5
          omega

/-- Fuel-indexed scan for all `include` directive matches (the fuel is a
structural-recursion device; a fuel of the input length never runs out,
every step consuming at least one character). -/
def findAllIncludesFuel (op cl : Str) : Nat → Str → List (Str × Str)
  | 0, _ => []
  | _ + 1, [] => []
  | fuel + 1, c :: rest =>
    match matchIncludeAt op cl (c :: rest) with
    | some x => (x.1, x.2.1) :: findAllIncludesFuel op cl fuel x.2.2
    | none => findAllIncludesFuel op cl fuel rest

/-- All non-overlapping matches of the `include` directive regex, left to
right (`re.FindAllStringSubmatch text -1` in `Gledki.include`): the list of
(group 1, group 2) pairs. -/
def findAllIncludes (op cl : Str) (s : Str) : List (Str × Str) :=
  findAllIncludesFuel op cl s.length s

/-- Result of an operation: normal value, normal Go error return, or fatal
abort (`Logger.Panic` / `panic`, which terminates the request and cannot be
returned as an error value). -/
inductive GRes (α : Type) where
  | ok (a : α)
  | err (msg : Str)
  | fatal (msg : Str)
  deriving DecidableEq

/-- Fuel-indexed core of fasttemplate `ExecuteStringStd` for a nonempty
start tag `o :: os`: non-strict substitution; placeholders missing from the
stash are kept verbatim; a start tag with no following end tag is emitted
verbatim.  Each step consumes at least the start tag, so a fuel of the
input length never runs out. -/
def ftExecStdFuel (o : Char) (os cl : Str) (stash : List (Str × Str)) :
    Nat → Str → Str
  | 0, s => s
  | fuel + 1, s =>
    match subIndex (o :: os) s with
    | none => s
    | some n =>
      match subIndex cl (s.drop (n + (o :: os).length)) with
      | none => s.take n ++ (o :: os) ++ s.drop (n + (o :: os).length)
      | some m =>
        (s.take n ++
          (match lookupA stash ((s.drop (n + (o :: os).length)).take m) with
           | some v => v
           | none => (o :: os) ++ (s.drop (n + (o :: os).length)).take m ++ cl)) ++
        ftExecStdFuel o os cl stash fuel
          ((s.drop (n + (o :: os).length)).drop (m + cl.length))

/-- `Gledki.FtExecStringStd` = fasttemplate `ExecuteStringStd` (non-strict;
this is the substitution used internally by the wrap and include passes).
fasttemplate is never invoked with an empty start tag. -/
def ftExecStd (op cl : Str) (stash : List (Str × Str)) (s : Str) : Str :=
  match op with
  | [] => s
  | o :: os => ftExecStdFuel o os cl stash s.length s

/-- A value of the `Stash` used at render time: literal text or a
`fasttemplate.TagFunc`.  The `Nat` state threaded through a tag function
models the variables the Go closure mutates (the tests' `level` counter). -/
inductive StashV where
  | lit (s : Str)
  | fn (f : Nat → Str × Nat)

/-- Association-list lookup in a render stash. -/
def lookupSV : List (Str × StashV) → Str → Option StashV
  | [], _ => none
  | (k, v) :: rest, key => if k = key then some v else lookupSV rest key

/-- Fuel-indexed core of fasttemplate `Execute` (strict mode, used by
`Gledki.Execute`) for a nonempty start tag, threading the tag-function
state: placeholders missing from the stash produce no output. -/
def ftExecStashFuel (o : Char) (os cl : Str) (stash : List (Str × StashV)) :
    Nat → Str → Nat → Str × Nat
  | 0, s, cnt => (s, cnt)
  | fuel + 1, s, cnt =>
    match subIndex (o :: os) s with
    | none => (s, cnt)
    | some n =>
      match subIndex cl (s.drop (n + (o :: os).length)) with
      | none => (s.take n ++ (o :: os) ++ s.drop (n + (o :: os).length), cnt)
      | some m =>
        let repc : Str × Nat :=
          match lookupSV stash ((s.drop (n + (o :: os).length)).take m) with
          | some (StashV.lit v) => (v, cnt)
          | some (StashV.fn f) => f cnt
          | none => ([], cnt)
        let outc := ftExecStashFuel o os cl stash fuel
          ((s.drop (n + (o :: os).length)).drop (m + cl.length)) repc.2
        (s.take n ++ repc.1 ++ outc.1, outc.2)

/-- fasttemplate `Execute` (strict), total in the start tag. -/
def ftExecStash (op cl : Str) (stash : List (Str × StashV)) (s : Str)
    (cnt : Nat) : Str × Nat :=
  match op with
  | [] => (s, cnt)
  | o :: os => ftExecStashFuel o os cl stash s.length s cnt

/-- The on-disk world: readable files and the paths on which `os.WriteFile`
fails. -/
structure FS where
  files : List (Str × Str)
  unwritable : List Str
  deriving DecidableEq

/-- `os.ReadFile`. -/
def fsRead (fs : FS) (p : Str) : Option Str := lookupA fs.files p

/-- `os.WriteFile`; `none` models a write error. -/
def fsWrite (fs : FS) (p content : Str) : Option FS :=
  if p ∈ fs.unwritable then none
  else some { fs with files := insertA fs.files p content }

/-- `isReadable` from gledki.go (an `os.Open` probe, not a content read). -/
def isReadable (fs : FS) (p : Str) : Bool := (fsRead fs p).isSome

/-- Configuration fields of the `Gledki` struct; the mutable maps `files` and
`compiled` are threaded separately (`Caches`, `St`).  `openTag`/`closeTag`
are `Tags[0]`/`Tags[1]`. -/
structure Gledki where
  Ext : Str
  Roots : List Str
  openTag : Str
  closeTag : Str
  IncludeLimit : Nat
  deriving DecidableEq

/-- `CompiledSuffix` (appended to the full path of a template to name its
on-disk compiled artifact). -/
def CompiledSuffix : Str := ("c").toList

/-- `filepath.Join root p` for clean segments. -/
def joinPath (root p : Str) : Str := root ++ ('/' :: p)

/-- First half of `Gledki.toFullPath`: append `Ext` when absent. -/
def addExt (t : Gledki) (path : Str) : Str :=
  if endsWithA path t.Ext then path else path ++ t.Ext

/-- The root loop of `Gledki.toFullPath`: first readable candidate wins;
a path already prefixed by a root is not joined again; if no candidate is
readable the (extended) path is returned unchanged. -/
def findInRoots (fs : FS) (path : Str) : List Str → Str
  | [] => path
  | root :: roots =>
    if isReadable fs (if isPrefixOfA root path then path else joinPath root path)
    then (if isPrefixOfA root path then path else joinPath root path)
    else findInRoots fs path roots

/-- `Gledki.toFullPath`. -/
def toFullPath (t : Gledki) (fs : FS) (path : Str) : Str :=
  findInRoots fs (addExt t path) t.Roots

/-- The raw-file cache `Gledki.files` plus the trace of `os.ReadFile` calls
made by `LoadFile` (an observation channel; Go state has no such field). -/
structure Caches where
  files : List (Str × Str)
  rawReads : List Str
  deriving DecidableEq

/-- The disk read of `Gledki.LoadFile` on a cache miss, with memoization. -/
def loadFileDisk (fs : FS) (c : Caches) (path : Str) : GRes Str × Caches :=
  match fsRead fs path with
  | some data =>
    (GRes.ok data,
     { files := insertA c.files path data, rawReads := c.rawReads ++ [path] })
  | none =>
    (GRes.err (("open ").toList ++ path), { c with rawReads := c.rawReads ++ [path] })

/-- `Gledki.LoadFile`: resolve, then serve from the raw-file cache only when
the cached content is non-empty, else read from disk. -/
def LoadFile (t : Gledki) (fs : FS) (c : Caches) (path : Str) : GRes Str × Caches :=
  match lookupA c.files (toFullPath t fs path) with
  | some text =>
    if 0 < text.length then (GRes.ok text, c)
    else loadFileDisk fs c (toFullPath t fs path)
  | none => loadFileDisk fs c (toFullPath t fs path)

/-- `Gledki.wrap`: trim one trailing newline, honor only the first `wrapper`
directive, remove its text from the body and substitute the body for the
wrapper's `content` placeholder non-strictly. -/
def wrap (t : Gledki) (fs : FS) (c : Caches) (text : Str) : GRes Str × Caches :=
  match findWrap t.openTag t.closeTag (trimNL text) with
  | none => (GRes.ok (trimNL text), c)
  | some (dir, wpath) =>
    match LoadFile t fs c wpath with
    | (GRes.ok w, c1) =>
      (GRes.ok (ftExecStd t.openTag t.closeTag
        [(("content").toList, replaceFirst (trimNL text) dir [])] (trimNL w)), c1)
    | (GRes.err e, c1) => (GRes.err e, c1)
    | (GRes.fatal e, c1) => (GRes.fatal e, c1)

/-- `Gledki.detectInludeRecursionLimit`, with the `runtime.Caller` stack walk
replaced by the explicit include-call depth `depth` (the main template is
processed at depth 1): the stack frame `1 + IncludeLimit` levels above the
guard call is the include pass itself exactly when `depth ≥ IncludeLimit+1`. -/
def detectInludeRecursionLimit (t : Gledki) (depth : Nat) : Bool :=
  decide (t.IncludeLimit + 1 ≤ depth)

/-- The `Logger.Panicf` message of the include pass' recursion guard. -/
def includeLimitMsg (limit : Nat) (m2 : Str) : Str :=
  ("Limit of ").toList ++ Nat.toDigits 10 limit ++
    (" nested inclusions reached while trying to include ").toList ++ m2

/-- The loop of `Gledki.include` over the matches.  Per match: run the
recursion guard (its value, constant across one pass, is precomputed as
`guard`; a trigger is the fatal `Logger.Panicf` abort), load the file, apply
the wrap pass to its newline-trimmed content, resolve the result one include
level deeper through `rec`, and record it in the stash under the matched
group 1 text. -/
def includeLoop (t : Gledki) (fs : FS)
    (rec : Caches → Str → GRes Str × Caches) (guard : Bool) :
    Caches → List (Str × Str) → List (Str × Str) →
      GRes (List (Str × Str)) × Caches
  | c, stash, [] => (GRes.ok stash, c)
  | c, stash, (m1, m2) :: rest =>
    if guard then (GRes.fatal (includeLimitMsg t.IncludeLimit m2), c)
    else
      match LoadFile t fs c m2 with
      | (GRes.err e, c1) => (GRes.err e, c1)
      | (GRes.fatal e, c1) => (GRes.fatal e, c1)
      | (GRes.ok content, c1) =>
        match wrap t fs c1 (trimNL content) with
        | (GRes.err e, c2) => (GRes.err e, c2)
        | (GRes.fatal e, c2) => (GRes.fatal e, c2)
        | (GRes.ok wrapped, c2) =>
          match rec c2 wrapped with
          | (GRes.err e, c3) => (GRes.err e, c3)
          | (GRes.fatal e, c3) => (GRes.fatal e, c3)
          | (GRes.ok inc, c3) =>
            includeLoop t fs rec guard c3 (insertA stash m1 inc) rest

/-- Fuel-indexed `Gledki.include`.  The structural fuel only bounds the
include-call depth: starting from `IncludeLimit + 2 - depth` it cannot run
out, because the recursion guard fires fatally at depth
`IncludeLimit + 1` before the fuel (then 1) is consumed again. -/
def includeRun (t : Gledki) (fs : FS) : Nat → Caches → Nat → Str →
    GRes Str × Caches
  | 0, c, _, _ => (GRes.err [], c)
  | fuel + 1, c, depth, text =>
    match findAllIncludes t.openTag t.closeTag text with
    | [] => (GRes.ok text, c)
    | m :: ms =>
      match includeLoop t fs (fun c1 w => includeRun t fs fuel c1 (depth + 1) w)
          (detectInludeRecursionLimit t depth) c [] (m :: ms) with
      | (GRes.ok stash, c1) =>
        (GRes.ok (ftExecStd t.openTag t.closeTag stash text), c1)
      | (GRes.err e, c1) => (GRes.err e, c1)
      | (GRes.fatal e, c1) => (GRes.fatal e, c1)

/-- `Gledki.include` (the include pass) at include-call depth `depth`; the
top-level call from `Compile` runs at depth 1.  With no matches the text is
returned unchanged; otherwise every match is resolved into a stash and one
non-strict substitution replaces the directives, keeping all other
placeholders for the final render. -/
def includePass (t : Gledki) (fs : FS) (c : Caches) (depth : Nat)
    (text : Str) : GRes Str × Caches :=
  includeRun t fs (t.IncludeLimit + 2 - depth) c depth text

/-- `Gledki.loadCompiled`: serve the in-memory compiled map, else read the
on-disk artifact `fullPath + CompiledSuffix` and memoize it (keyed by
`fullPath`). -/
def loadCompiled (fs : FS) (compiled : List (Str × Str)) (fullPath : Str) :
    GRes Str × List (Str × Str) :=
  match lookupA compiled fullPath with
  | some text => (GRes.ok text, compiled)
  | none =>
    match fsRead fs (fullPath ++ CompiledSuffix) with
    | some data => (GRes.ok data, insertA compiled fullPath data)
    | none =>
      (GRes.err (("compiled file: open ").toList ++ fullPath ++ CompiledSuffix),
       compiled)

/-- `Gledki.storeCompiled`: write the on-disk artifact; a write failure is a
fatal abort (`t.Logger.Panic(err)`), never a normal error return. -/
def storeCompiled (fs : FS) (fullPath text : Str) : GRes Unit × FS :=
  match fsWrite fs (fullPath ++ CompiledSuffix) text with
  | some fs1 => (GRes.ok (), fs1)
  | none =>
    (GRes.fatal (("write ").toList ++ fullPath ++ CompiledSuffix ++
      (": write error").toList), fs)

/-- The full mutable state of a `Gledki` instance together with the disk. -/
structure St where
  fs : FS
  caches : Caches
  compiled : List (Str × Str)
  deriving DecidableEq

/-- `Gledki.Compile` after its initial `toFullPath` resolution.  `cache` is
the package-level flag `CacheTemplates`.  The `storeCompiled` goroutine
(whose completion `Execute` awaits through the wait group) is modelled
synchronously; its panic on a write failure surfaces as `GRes.fatal`. -/
def compileFull (t : Gledki) (cache : Bool) (st : St) (path : Str) : GRes Str × St :=
  match loadCompiled st.fs st.compiled path with
  | (GRes.ok text, cm) => (GRes.ok text, { st with compiled := cm })
  | (_, cm1) =>
    match LoadFile t st.fs st.caches path with
    | (GRes.err e, c) => (GRes.err e, { st with compiled := cm1, caches := c })
    | (GRes.fatal e, c) => (GRes.fatal e, { st with compiled := cm1, caches := c })
    | (GRes.ok text, c1) =>
      match wrap t st.fs c1 text with
      | (GRes.err e, c) => (GRes.err e, { st with compiled := cm1, caches := c })
      | (GRes.fatal e, c) => (GRes.fatal e, { st with compiled := cm1, caches := c })
      | (GRes.ok text2, c2) =>
        match includePass t st.fs c2 1 text2 with
        | (GRes.err e, c) => (GRes.err e, { st with compiled := cm1, caches := c })
        | (GRes.fatal e, c) => (GRes.fatal e, { st with compiled := cm1, caches := c })
        | (GRes.ok text3, c3) =>
          if cache then
            match storeCompiled st.fs path text3 with
            | (GRes.ok _, fs1) =>
              (GRes.ok text3,
               { fs := fs1, caches := c3, compiled := insertA cm1 path text3 })
            | (GRes.fatal e, fs1) =>
              (GRes.fatal e,
               { fs := fs1, caches := c3, compiled := insertA cm1 path text3 })
            | (GRes.err e, fs1) =>
              (GRes.err e,
               { fs := fs1, caches := c3, compiled := insertA cm1 path text3 })
          else (GRes.ok text3, { st with compiled := cm1, caches := c3 })

/-- `Gledki.Compile`. -/
def Compile (t : Gledki) (cache : Bool) (st : St) (path : Str) : GRes Str × St :=
  compileFull t cache st (toFullPath t st.fs path)

/-- `Gledki.Execute`: compile, then render with fasttemplate in strict mode
over the instance `Stash`.  `cnt` is the state threaded through the stash's
tag functions (the closed-over counter of the tests). -/
def Execute (t : Gledki) (cache : Bool) (st : St) (path : Str)
    (stash : List (Str × StashV)) (cnt : Nat) : GRes (Str × Nat) × St :=
  match Compile t cache st path with
  | (GRes.ok text, st1) =>
    (GRes.ok (ftExecStash t.openTag t.closeTag stash text cnt), st1)
  | (GRes.err e, st1) => (GRes.err e, st1)
  | (GRes.fatal e, st1) => (GRes.fatal e, st1)

/-- The optional trailing `\n?` of the tmpls wrapper regex. -/
def nlTail : Str → Str × Str
  | [] => ([], [])
  | c :: rest =>
    if c = Char.ofNat 10 then ([c], rest) else ([], c :: rest)

theorem nlTail_length (s : Str) : (nlTail s).2.length ≤ s.length := by
  cases s with
  | nil => simp [nlTail]
  | cons c rest =>
    simp only [nlTail]
    split <;> simp

/-- Match `\Qop\Ewrapper\s+([/\.\w]+)\Qcl\E\n?` (the tmpls wrapper directive
without its optional leading newline) at the start of `s`.  Returns
(path = group 2, remainder). -/
def tmplsMatchWrapCore (op cl : Str) (s : Str) : Option (Str × Str) :=
  match dropPrefixQ (op ++ ("wrapper").toList) s with
  | none => none
  | some s1 =>
    if (s1.takeWhile isSpaceGo).isEmpty then none
    else if ((s1.dropWhile isSpaceGo).takeWhile isPathCharT).isEmpty then none
    else
      match dropPrefixQ cl ((s1.dropWhile isSpaceGo).dropWhile isPathCharT) with
      | none => none
      | some s4 =>
        some ((s1.dropWhile isSpaceGo).takeWhile isPathCharT, (nlTail s4).2)

theorem tmplsMatchWrapCore_after_length {op cl s ph after : Str}
    (h : tmplsMatchWrapCore op cl s = some (ph, after)) : after.length + 9 ≤ s.length := by
  unfold tmplsMatchWrapCore at h
  split at h
  · cases h
  · next s1 hdrop =>
    have hs1 : s.length = (op ++ ("wrapper").toList).length + s1.length :=
      dropPrefixQ_length hdrop
    split at h
    · cases h
    · split at h
      · cases h
      · next hne =>
        split at h
        · cases h
        · next s4 hdrop2 =>
          have hs4 : ((s1.dropWhile isSpaceGo).dropWhile isPathCharT).length
              = cl.length + s4.length := dropPrefixQ_length hdrop2
          have h2 : (s1.dropWhile isSpaceGo).length + 1 ≤ s1.length := by
            cases hws : s1.takeWhile isSpaceGo with
            | nil => simp [hws] at *
            | cons w wrest =>
              have := List.takeWhile_append_dropWhile (p := isSpaceGo) (l := s1)
              have hlen := congrArg List.length this
              simp only [List.length_append, hws, List.length_cons] at hlen
              omega
          have h3 : ((s1.dropWhile isSpaceGo).dropWhile isPathCharT).length + 1
              ≤ (s1.dropWhile isSpaceGo).length := by
            cases hph : (s1.dropWhile isSpaceGo).takeWhile isPathCharT with
            | nil => simp [hph] at hne
            | cons w wrest =>
              have := List.takeWhile_append_dropWhile (p := isPathCharT)
                (l := s1.dropWhile isSpaceGo)
              have hlen := congrArg List.length this
              simp only [List.length_append, hph, List.length_cons] at hlen
              omega
          have h5 : after = (nlTail s4).2 := by
            simp only [Option.some.injEq, Prod.mk.injEq] at h
            exact h.2.symm
          have h6 := nlTail_length s4
          have hop : 7 ≤ (op ++ ("wrapper").toList).length := by
            simp [List.length_append]
          subst h5
          omega

/-- Match the full tmpls wrapper directive
`(?m)\n?\Qop\E(wrapper\s+([/\.\w]+))\Qcl\E\n?` at one scan position:
an optional leading newline is consumed by `\n?`, otherwise `\n?` matches
empty and the literal open tag must start here. -/
def tmplsMatchWrapAt (op cl : Str) (s : Str) : Option (Str × Str) :=
  match s with
  | [] => none
  | c :: rest =>
    if c = Char.ofNat 10 then tmplsMatchWrapCore op cl rest
    else tmplsMatchWrapCore op cl (c :: rest)

theorem tmplsMatchWrapAt_after_length {op cl s ph after : Str}
    (h : tmplsMatchWrapAt op cl s = some (ph, after)) : after.length < s.length := by
  cases s with
  | nil => simp [tmplsMatchWrapAt] at h
  | cons c rest =>
    rw [show tmplsMatchWrapAt op cl (c :: rest)
        = if c = Char.ofNat 10 then tmplsMatchWrapCore op cl rest
          else tmplsMatchWrapCore op cl (c :: rest) from rfl] at h
    split at h
    · have := tmplsMatchWrapCore_after_length h
      simp only [List.length_cons]
      omega
    · have := tmplsMatchWrapCore_after_length h
      simp only [List.length_cons] at this ⊢
      omega

/-- First tmpls wrapper match (`FindAllStringSubmatch(text, 1)`): the path
(group 2) of the leftmost match. -/
def tmplsFindWrap (op cl : Str) (s : Str) : Option Str :=
  match s with
  | [] => none
  | c :: rest =>
    match tmplsMatchWrapAt op cl (c :: rest) with
    | some (ph, _) => some ph
    | none => tmplsFindWrap op cl rest

/-- Fuel-indexed deletion of every tmpls wrapper-directive match
(`reWrapper.ReplaceAllString(text, "")`); a fuel of the input length never
runs out. -/
def tmplsRemoveWrapsFuel (op cl : Str) : Nat → Str → Str
  | 0, s => s
  | _ + 1, [] => []
  | fuel + 1, c :: rest =>
    match tmplsMatchWrapAt op cl (c :: rest) with
    | some x => tmplsRemoveWrapsFuel op cl fuel x.2
    | none => c :: tmplsRemoveWrapsFuel op cl fuel rest

/-- `reWrapper.ReplaceAllString(text, "")` of the tmpls wrap pass: delete
every non-overlapping match of the wrapper directive regex. -/
def tmplsRemoveWraps (op cl : Str) (s : Str) : Str :=
  tmplsRemoveWrapsFuel op cl s.length s

/-- The tmpls `include` directive matcher: like `matchIncludeAt` but with the
hyphen-free path class `[/\.\w]`. -/
def matchIncludeAtT (op cl : Str) (s : Str) : Option (Str × Str × Str) :=
  match dropPrefixQ (op ++ ("include").toList) s with
  | none => none
  | some s1 =>
    if (s1.takeWhile isSpaceGo).isEmpty then none
    else if ((s1.dropWhile isSpaceGo).takeWhile isPathCharT).isEmpty then none
    else
      match dropPrefixQ cl ((s1.dropWhile isSpaceGo).dropWhile isPathCharT) with
      | none => none
      | some s4 =>
        some (("include").toList ++ s1.takeWhile isSpaceGo ++
            (s1.dropWhile isSpaceGo).takeWhile isPathCharT,
          (s1.dropWhile isSpaceGo).takeWhile isPathCharT,
          s4)

theorem matchIncludeAtT_after_length {op cl s m1 m2 after : Str}
    (h : matchIncludeAtT op cl s = some (m1, m2, after)) : after.length < s.length := by
  unfold matchIncludeAtT at h
  split at h
  · cases h
  · next s1 hdrop =>
    have hs1 : s.length = (op ++ ("include").toList).length + s1.length :=
      dropPrefixQ_length hdrop
    split at h
    · cases h
    · split at h
      · cases h
      · split at h
        · cases h
        · next s4 hdrop2 =>
          have hs4 : ((s1.dropWhile isSpaceGo).dropWhile isPathCharT).length
              = cl.length + s4.length := dropPrefixQ_length hdrop2
          have h2 : (s1.dropWhile isSpaceGo).length ≤ s1.length :=
            length_dropWhileA_le _ _
          have h3 : ((s1.dropWhile isSpaceGo).dropWhile isPathCharT).length
              ≤ (s1.dropWhile isSpaceGo).length := length_dropWhileA_le _ _
          have h5 : after = s4 := by
            simp only [Option.some.injEq, Prod.mk.injEq] at h
            exact h.2.2.symm
          have hop : 7 ≤ (op ++ ("include").toList).length := by
            simp [List.length_append]
          subst h5
          omega

/-- Fuel-indexed scan for all tmpls `include` matches. -/
def findAllIncludesTFuel (op cl : Str) : Nat → Str → List (Str × Str)
  | 0, _ => []
  | _ + 1, [] => []
  | fuel + 1, c :: rest =>
    match matchIncludeAtT op cl (c :: rest) with
    | some x => (x.1, x.2.1) :: findAllIncludesTFuel op cl fuel x.2.2
    | none => findAllIncludesTFuel op cl fuel rest

/-- All tmpls `include` matches, left to right, non-overlapping. -/
def findAllIncludesT (op cl : Str) (s : Str) : List (Str × Str) :=
  findAllIncludesTFuel op cl s.length s

/-- Configuration fields of the legacy single-root `Tmpls` struct. -/
structure Tmpls where
  Ext : Str
  root : Str
  openTag : Str
  closeTag : Str
  IncludeLimit : Nat
  deriving DecidableEq

/-- `Tmpls.toFullPath`: append the extension when absent and prefix the
single root when the path does not already start with it; unlike the gledki
version there is no readability probe. -/
def TmplsToFullPath (t : Tmpls) (path : Str) : Str :=
  if isPrefixOfA t.root (if endsWithA path t.Ext then path else path ++ t.Ext)
  then (if endsWithA path t.Ext then path else path ++ t.Ext)
  else joinPath t.root (if endsWithA path t.Ext then path else path ++ t.Ext)

/-- `fileIsReadable` from tmpls (an `os.Stat` probe for a readable regular
file; in this file-system model identical to `isReadable`). -/
def fileIsReadable (fs : FS) (p : Str) : Bool := (fsRead fs p).isSome

/-- The guarded disk read of `Tmpls.LoadFile`: `os.ReadFile` happens only
after a successful `fileIsReadable` probe, else the error names the path. -/
def tmplsLoadFileDisk (fs : FS) (c : Caches) (p : Str) : GRes Str × Caches :=
  match fsRead fs p with
  | some data =>
    (GRes.ok data,
     { files := insertA c.files p data, rawReads := c.rawReads ++ [p] })
  | none =>
    (GRes.err (("File ").toList ++ p ++ (" could not be read!").toList), c)

/-- `Tmpls.LoadFile`. -/
def TmplsLoadFile (t : Tmpls) (fs : FS) (c : Caches) (path : Str) :
    GRes Str × Caches :=
  match lookupA c.files (TmplsToFullPath t path) with
  | some text =>
    if 0 < text.length then (GRes.ok text, c)
    else tmplsLoadFileDisk fs c (TmplsToFullPath t path)
  | none => tmplsLoadFileDisk fs c (TmplsToFullPath t path)

/-- `Tmpls.loadCompiled`.  Note the keying slip preserved from the source:
after a cold disk load the artifact content is memoized under
`fullPath ++ CompiledSuffix` (the reassigned `fullPath`), not under the
`fullPath` key that `Compile` later consults. -/
def TmplsLoadCompiled (fs : FS) (compiled : List (Str × Str)) (fullPath : Str) :
    GRes Str × List (Str × Str) :=
  match lookupA compiled fullPath with
  | some text => (GRes.ok text, compiled)
  | none =>
    match fsRead fs (fullPath ++ CompiledSuffix) with
    | some data =>
      (GRes.ok data, insertA compiled (fullPath ++ CompiledSuffix) data)
    | none =>
      (GRes.err (("File ").toList ++ fullPath ++ CompiledSuffix ++
        (" could not be read!").toList), compiled)

/-- `Tmpls.wrap`: honor the first wrapper directive (`FindAllStringSubmatch`
with n = 1), then delete every directive match from the newline-trimmed body
(`ReplaceAllString`), then splice the body into the first occurrence of the
literal `content` placeholder of the (untrimmed) wrapper
(`strings.Replace(wrapper, spf("%scontent%s", tags...), text, 1)`). -/
def TmplsWrap (t : Tmpls) (fs : FS) (c : Caches) (text : Str) :
    GRes Str × Caches :=
  match tmplsFindWrap t.openTag t.closeTag text with
  | none => (GRes.ok text, c)
  | some wpath =>
    match TmplsLoadFile t fs c wpath with
    | (GRes.ok w, c1) =>
      (GRes.ok (replaceFirst w (t.openTag ++ ("content").toList ++ t.closeTag)
        (tmplsRemoveWraps t.openTag t.closeTag (trimBothNL text))), c1)
    | (GRes.err e, c1) => (GRes.err e, c1)
    | (GRes.fatal e, c1) => (GRes.fatal e, c1)

/-- `Tmpls.detectInludeRecurionLimit` (same stack-walk guard as the gledki
variant, with the explicit depth counter). -/
def detectInludeRecurionLimit (t : Tmpls) (depth : Nat) : Bool :=
  decide (t.IncludeLimit + 1 ≤ depth)

/-- The match loop of `Tmpls.include` (see `includeLoop`). -/
def TmplsIncludeLoop (t : Tmpls) (fs : FS)
    (rec : Caches → Str → GRes Str × Caches) (guard : Bool) :
    Caches → List (Str × Str) → List (Str × Str) →
      GRes (List (Str × Str)) × Caches
  | c, stash, [] => (GRes.ok stash, c)
  | c, stash, (m1, m2) :: rest =>
    if guard then (GRes.fatal (includeLimitMsg t.IncludeLimit m2), c)
    else
      match TmplsLoadFile t fs c m2 with
      | (GRes.err e, c1) => (GRes.err e, c1)
      | (GRes.fatal e, c1) => (GRes.fatal e, c1)
      | (GRes.ok content, c1) =>
        match TmplsWrap t fs c1 (trimBothNL content) with
        | (GRes.err e, c2) => (GRes.err e, c2)
        | (GRes.fatal e, c2) => (GRes.fatal e, c2)
        | (GRes.ok wrapped, c2) =>
          match rec c2 wrapped with
          | (GRes.err e, c3) => (GRes.err e, c3)
          | (GRes.fatal e, c3) => (GRes.fatal e, c3)
          | (GRes.ok inc, c3) =>
            TmplsIncludeLoop t fs rec guard c3 (insertA stash m1 inc) rest

/-- Fuel-indexed `Tmpls.include` (see `includeRun`). -/
def TmplsIncludeRun (t : Tmpls) (fs : FS) : Nat → Caches → Nat → Str →
    GRes Str × Caches
  | 0, c, _, _ => (GRes.err [], c)
  | fuel + 1, c, depth, text =>
    match findAllIncludesT t.openTag t.closeTag text with
    | [] => (GRes.ok text, c)
    | m :: ms =>
      match TmplsIncludeLoop t fs
          (fun c1 w => TmplsIncludeRun t fs fuel c1 (depth + 1) w)
          (detectInludeRecurionLimit t depth) c [] (m :: ms) with
      | (GRes.ok stash, c1) =>
        (GRes.ok (ftExecStd t.openTag t.closeTag stash text), c1)
      | (GRes.err e, c1) => (GRes.err e, c1)
      | (GRes.fatal e, c1) => (GRes.fatal e, c1)

/-- `Tmpls.include` at include-call depth `depth`.  Differences from the
gledki include pass: the hyphen-free path class, `strings.Trim` (both sides)
instead of `TrimSuffix` on included content, and on a load error the text so
far is returned with the error (modelled by `GRes.err` as well). -/
def TmplsIncludePass (t : Tmpls) (fs : FS) (c : Caches) (depth : Nat)
    (text : Str) : GRes Str × Caches :=
  TmplsIncludeRun t fs (t.IncludeLimit + 2 - depth) c depth text

/-- `Tmpls.Compile` after its initial path resolution.  Unlike the gledki
variant there is no caching flag: the compiled map and the on-disk artifact
are always written. -/
def TmplsCompileFull (t : Tmpls) (st : St) (path : Str) : GRes Str × St :=
  match TmplsLoadCompiled st.fs st.compiled path with
  | (GRes.ok text, cm) => (GRes.ok text, { st with compiled := cm })
  | (_, cm1) =>
    match TmplsLoadFile t st.fs st.caches path with
    | (GRes.err e, c) => (GRes.err e, { st with compiled := cm1, caches := c })
    | (GRes.fatal e, c) => (GRes.fatal e, { st with compiled := cm1, caches := c })
    | (GRes.ok text, c1) =>
      match TmplsWrap t st.fs c1 text with
      | (GRes.err e, c) => (GRes.err e, { st with compiled := cm1, caches := c })
      | (GRes.fatal e, c) => (GRes.fatal e, { st with compiled := cm1, caches := c })
      | (GRes.ok text2, c2) =>
        match TmplsIncludePass t st.fs c2 1 text2 with
        | (GRes.err e, c) => (GRes.err e, { st with compiled := cm1, caches := c })
        | (GRes.fatal e, c) => (GRes.fatal e, { st with compiled := cm1, caches := c })
        | (GRes.ok text3, c3) =>
          match storeCompiled st.fs path text3 with
          | (GRes.ok _, fs1) =>
            (GRes.ok text3,
             { fs := fs1, caches := c3, compiled := insertA cm1 path text3 })
          | (GRes.fatal e, fs1) =>
            (GRes.fatal e,
             { fs := fs1, caches := c3, compiled := insertA cm1 path text3 })
          | (GRes.err e, fs1) =>
            (GRes.err e,
             { fs := fs1, caches := c3, compiled := insertA cm1 path text3 })

/-- `Tmpls.Compile`. -/
def TmplsCompile (t : Tmpls) (st : St) (path : Str) : GRes Str × St :=
  TmplsCompileFull t st (TmplsToFullPath t path)

/-! ### Concrete template worlds used by the closed theorems and witnesses -/

/-- The default open tag of the tests and examples: the dollar-brace pair
(the characters of the string `${`). -/
def tagO : Str := ['$', Char.ofNat 123]

/-- The default close tag: the closing brace `}`. -/
def tagC : Str := [Char.ofNat 125]

/-- A chain `includes.htm → incl1 → incl2 → incl3 → incl4` under the root
`t`: include directives sit at nesting levels 0..3 (include-call depths
1..4) and each of the four included files carries a `level` placeholder —
the shape of the `TestIncludeLimitPanic`/`TestIncludeLimitNoPanic` template
tree (`testdata/tpls/includes.htm`), whose files are not part of the
sources; the chain is constructed from the claim's description. -/
def fsChain : FS :=
  { files :=
      [ (("t/includes.htm").toList, ("$\x7binclude incl1\x7d").toList),
        (("t/incl1.htm").toList, ("$\x7blevel\x7d $\x7binclude incl2\x7d").toList),
        (("t/incl2.htm").toList, ("$\x7blevel\x7d $\x7binclude incl3\x7d").toList),
        (("t/incl3.htm").toList, ("$\x7blevel\x7d $\x7binclude incl4\x7d").toList),
        (("t/incl4.htm").toList, ("$\x7blevel\x7d").toList) ],
    unwritable := [] }

/-- A `Gledki` instance over `fsChain` with the given include limit. -/
def glChain (lim : Nat) : Gledki :=
  { Ext := (".htm").toList, Roots := [("t").toList],
    openTag := tagO, closeTag := tagC, IncludeLimit := lim }

/-- Fresh state over `fsChain`. -/
def stChain : St :=
  { fs := fsChain, caches := { files := [], rawReads := [] }, compiled := [] }

/-- The tests' counter-incrementing `level` tag function: each evaluation
bumps the counter and renders it. -/
def stashLevel : List (Str × StashV) :=
  [ (("level").toList, StashV.fn (fun n => (Nat.toDigits 10 (n + 1), n + 1))) ]

/-- A world with a stale on-disk compiled artifact: the raw template reads
`NEW` but the artifact `r/a.htmc` still holds `OLD`. -/
def fsStale : FS :=
  { files := [ (("r/a.htm").toList, ("NEW").toList),
               (("r/a.htmc").toList, ("OLD").toList) ],
    unwritable := [] }

/-- Instance over the root `r` with default limit 3. -/
def glR : Gledki :=
  { Ext := (".htm").toList, Roots := [("r").toList],
    openTag := tagO, closeTag := tagC, IncludeLimit := 3 }

/-- Fresh state over `fsStale`. -/
def stStale : St :=
  { fs := fsStale, caches := { files := [], rawReads := [] }, compiled := [] }

/-- A world whose main template includes a hyphenated path `b-x`: accepted
by the gledki path grammar `[/\.\-\w]`, rejected by the tmpls grammar
`[/\.\w]`. -/
def fsHyph : FS :=
  { files := [ (("r/a.htm").toList, ("$\x7binclude b-x\x7d").toList),
               (("r/b-x.htm").toList, ("hi").toList) ],
    unwritable := [] }

/-- Fresh state over `fsHyph`. -/
def stHyph : St :=
  { fs := fsHyph, caches := { files := [], rawReads := [] }, compiled := [] }

/-- The tmpls twin of `glR` (single root `r`). -/
def tmR : Tmpls :=
  { Ext := (".htm").toList, root := ("r").toList,
    openTag := tagO, closeTag := tagC, IncludeLimit := 3 }

/-- A plain one-file world for the idempotence witness. -/
def fsHello : FS :=
  { files := [ (("r/a.htm").toList, ("hello").toList) ], unwritable := [] }

/-- Fresh state over `fsHello`. -/
def stHello : St :=
  { fs := fsHello, caches := { files := [], rawReads := [] }, compiled := [] }

/-- Theme roots world of the path-resolution claim: `view.htm` exists under
both `themeA` and `themeB`; `only.htm` exists only under `themeB`. -/
def fsTheme : FS :=
  { files := [ (("themeA/view.htm").toList, ("A").toList),
               (("themeB/view.htm").toList, ("B").toList),
               (("themeB/only.htm").toList, ("C").toList) ],
    unwritable := [] }

/-- Instance with the two theme roots, `themeA` first. -/
def glTheme : Gledki :=
  { Ext := (".htm").toList, Roots := [("themeA").toList, ("themeB").toList],
    openTag := tagO, closeTag := tagC, IncludeLimit := 3 }

/-- Two wrapper directives in one body: only the first (`layout`) may be
honored by the wrap pass. -/
def fsTwoWrap : FS :=
  { files := [ (("r/two.htm").toList,
        ("$\x7bwrapper layout\x7d$\x7bwrapper lay2\x7dBody").toList),
      (("r/layout.htm").toList, ("[$\x7bcontent\x7d]").toList),
      (("r/lay2.htm").toList, ("X").toList) ],
    unwritable := [] }

/-- A one-wrapper world: the page body carries one wrapper directive; the
wrapper file holds a `content` placeholder between literals and an unknown
`title` placeholder after it. -/
def fsOneWrap : FS :=
  { files := [ (("r/page.htm").toList, ("$\x7bwrapper layout\x7dBody").toList),
      (("r/layout.htm").toList,
        ("A $\x7bcontent\x7d$\x7btitle\x7d!").toList) ],
    unwritable := [] }

/-! ### Supporting lemmas -/

theorem lookupA_insertA_self (m : List (Str × Str)) (k v : Str) :
    lookupA (insertA m k v) k = some v := by
  induction m with
  | nil => simp [insertA, lookupA]
  | cons kv rest ih =>
    obtain ⟨k', v'⟩ := kv
    by_cases hk : k' = k
    · simp [insertA, hk, lookupA]
    · simp [insertA, hk, lookupA, ih]

theorem lookupA_insertA_ne (m : List (Str × Str)) (k v key : Str) (h : key ≠ k) :
    lookupA (insertA m k v) key = lookupA m key := by
  induction m with
  | nil => simp only [insertA, lookupA, if_neg (Ne.symm h)]
  | cons kv rest ih =>
    obtain ⟨k', v'⟩ := kv
    by_cases hk : k' = k
    · subst hk
      simp only [insertA, if_pos rfl, lookupA, if_neg (Ne.symm h)]
    · simp only [insertA, if_neg hk, lookupA]
      by_cases hkey : k' = key
      · simp [hkey]
      · simp [hkey, ih]

theorem isPrefixOfA_append_self (p t : Str) : isPrefixOfA p (p ++ t) = true := by
  induction p with
  | nil => rfl
  | cons a as ih => simp [isPrefixOfA, ih]

theorem endsWithA_append (n e : Str) : endsWithA (n ++ e) e = true := by
  unfold endsWithA
  rw [List.reverse_append]
  exact isPrefixOfA_append_self _ _

/-! ### Claim theorems -/

/-- C1: on the nested-include chain (directives at nesting levels 0..3,
include-call depths 1..4), resolution aborts fatally — `GRes.fatal`, the
model of the `Logger.Panicf` abort, not a normal error return — exactly when
the nesting reaches the configured `IncludeLimit` (limit 3: the guard fires
while including `incl4`), completes normally when the deepest directive sits
at nesting depth `IncludeLimit - 1` (limit 4), and with `IncludeLimit = 7`
the same structure completes and rendering evaluates the supplied
counter-incrementing `level` placeholder exactly 4 times (final counter 4,
output `1 2 3 4`). -/
theorem c1_include_limit_fatal_behavior :
    (Compile (glChain 3) true stChain (("includes").toList)).1
        = GRes.fatal (includeLimitMsg 3 (("incl4").toList))
      ∧ (Compile (glChain 4) true stChain (("includes").toList)).1
        = GRes.ok
          (("$\x7blevel\x7d $\x7blevel\x7d $\x7blevel\x7d $\x7blevel\x7d").toList)
      ∧ (Execute (glChain 7) true stChain (("includes").toList) stashLevel 0).1
        = GRes.ok ((("1 2 3 4").toList), 4) :=
  ⟨rfl, rfl, rfl⟩

/-- C5 (demonstration of the divergence): with the caching flag set to
false, `Compile` still consults the compiled caches: over `fsStale` (raw
source `NEW`, on-disk artifact `OLD`) it serves the artifact `OLD` instead
of fully re-resolving, and moreover memoizes it in the in-memory compiled
map. -/
theorem c5_flag_false_still_serves_artifact :
    (Compile glR false stStale (("a").toList)).1 = GRes.ok (("OLD").toList)
      ∧ lookupA (Compile glR false stStale (("a").toList)).2.compiled
          (("r/a.htm").toList) = some (("OLD").toList)
      ∧ (Compile glR false stStale (("a").toList)).1 ≠ GRes.ok (("NEW").toList) :=
  ⟨rfl, rfl, by decide⟩

/-- C9 (counterexample): with a one-element root list the two variants are
not behaviorally equivalent.  On the tree whose main template is
`${include b-x}` (a hyphenated include path), the multi-root gledki variant
flattens to `hi` while the single-root tmpls variant does not accept the
hyphen in its path grammar and leaves the directive text verbatim. -/
theorem c9_variants_differ_on_hyphenated_include :
    (Compile glR true stHyph (("a").toList)).1 = GRes.ok (("hi").toList)
      ∧ (TmplsCompile tmR stHyph (("a").toList)).1
        = GRes.ok (("$\x7binclude b-x\x7d").toList)
      ∧ (Compile glR true stHyph (("a").toList)).1
        ≠ (TmplsCompile tmR stHyph (("a").toList)).1 :=
  ⟨rfl, rfl, by decide⟩

/-- C4: path resolution tries each configured root in order, appending the
default extension when absent (`addExt`), and returns the first root-joined
candidate that is readable: with roots `[rA, rB]`, a readable `rA`
candidate wins even when the `rB` candidate is also readable; when only the
`rB` candidate is readable, it is returned. -/
theorem c4_first_root_wins (t : Gledki) (fs : FS) (rA rB name : Str)
    (hroots : t.Roots = [rA, rB]) :
    (isReadable fs (if isPrefixOfA rA (addExt t name) then addExt t name
        else joinPath rA (addExt t name)) = true →
      toFullPath t fs name
        = (if isPrefixOfA rA (addExt t name) then addExt t name
          else joinPath rA (addExt t name)))
    ∧ (isReadable fs (if isPrefixOfA rA (addExt t name) then addExt t name
        else joinPath rA (addExt t name)) = false →
      isReadable fs (if isPrefixOfA rB (addExt t name) then addExt t name
        else joinPath rB (addExt t name)) = true →
      toFullPath t fs name
        = (if isPrefixOfA rB (addExt t name) then addExt t name
          else joinPath rB (addExt t name))) := by
  unfold toFullPath
  rw [hroots]
  constructor
  · intro h1
    simp only [findInRoots, h1, if_true]
  · intro h1 h2
    simp only [findInRoots, h1, h2, if_true, Bool.false_eq_true, if_false]

/-- Witness for C4 at the claim's concrete inputs over `fsTheme`:
`view.htm` exists in both theme roots and the `themeA` copy is resolved;
`only.htm` exists only in `themeB` and that copy is resolved. -/
theorem c4_first_root_wins_witness :
    toFullPath glTheme fsTheme (("view").toList) = ("themeA/view.htm").toList
    ∧ toFullPath glTheme fsTheme (("only").toList) = ("themeB/only.htm").toList := by
  constructor
  · have h := (c4_first_root_wins glTheme fsTheme (("themeA").toList)
      (("themeB").toList) (("view").toList) rfl).1 (by decide)
    exact h.trans (by decide)
  · have h := (c4_first_root_wins glTheme fsTheme (("themeA").toList)
      (("themeB").toList) (("only").toList) rfl).2 (by decide) (by decide)
    exact h.trans (by decide)

/-- C10: `toFullPath` appends the configured extension only when the name
does not already end with it, so `Compile` on `N` and on `N + Ext` resolve
to the same concrete path and return identical results (for any caching
mode and state). -/
theorem c10_compile_ext_insensitive (t : Gledki) (cache : Bool) (st : St)
    (name : Str) (h : endsWithA name t.Ext = false) :
    toFullPath t st.fs (name ++ t.Ext) = toFullPath t st.fs name
    ∧ Compile t cache st (name ++ t.Ext) = Compile t cache st name := by
  have haddext : addExt t (name ++ t.Ext) = addExt t name := by
    unfold addExt
    rw [endsWithA_append, if_pos rfl, h]
    simp
  constructor
  · unfold toFullPath
    rw [haddext]
  · unfold Compile toFullPath
    rw [haddext]

/-- Witness for C10: `a` does not end in `.htm`, and compiling `a` and
`a.htm` over `fsHello` resolve identically and agree. -/
theorem c10_compile_ext_insensitive_witness :
    endsWithA (("a").toList) glR.Ext = false
    ∧ toFullPath glR stHello.fs (("a").toList ++ glR.Ext)
        = toFullPath glR stHello.fs (("a").toList)
    ∧ Compile glR true stHello (("a").toList ++ glR.Ext)
        = Compile glR true stHello (("a").toList) := by
  have h := c10_compile_ext_insensitive glR true stHello (("a").toList) (by decide)
  exact ⟨by decide, h.1, h.2⟩

/-- C6: `LoadFile` serves the raw-file cache only when the cached content
for the exact resolved path is non-empty (first conjunct: immediate return,
no state change, hence no disk read); a zero-length cached value is treated
as absent, so the lookup goes back to disk, and a successful read overwrites
the spurious empty entry in the cache (second conjunct: the read is
performed — it is appended to the read trace — and the cache entry becomes
the fresh content). -/
theorem c6_loadfile_empty_cached_is_absent (t : Gledki) (fs : FS) (c : Caches)
    (path : Str) :
    (∀ text, lookupA c.files (toFullPath t fs path) = some text → text ≠ [] →
      LoadFile t fs c path = (GRes.ok text, c))
    ∧ (lookupA c.files (toFullPath t fs path) = some [] →
      ∀ d, fsRead fs (toFullPath t fs path) = some d →
        LoadFile t fs c path
          = (GRes.ok d,
             { files := insertA c.files (toFullPath t fs path) d,
               rawReads := c.rawReads ++ [toFullPath t fs path] })) := by
  constructor
  · intro text hlook hne
    unfold LoadFile
    rw [hlook]
    have : 0 < text.length := List.length_pos.mpr hne
    simp [this]
  · intro hlook d hd
    unfold LoadFile
    rw [hlook]
    simp only [List.length_nil, Nat.lt_irrefl, if_false]
    unfold loadFileDisk
    rw [hd]

/-- Witness for C6: over a cache holding a non-empty entry for `r/a.htm`
the cached text is served unchanged; over a cache holding an empty entry the
disk content `hello` is read and overwrites it. -/
theorem c6_loadfile_empty_cached_is_absent_witness :
    LoadFile glR fsHello
        { files := [((("r/a.htm")).toList, ("cached").toList)], rawReads := [] }
        (("a").toList)
      = (GRes.ok (("cached").toList),
         { files := [((("r/a.htm")).toList, ("cached").toList)], rawReads := [] })
    ∧ LoadFile glR fsHello
        { files := [((("r/a.htm")).toList, [])], rawReads := [] } (("a").toList)
      = (GRes.ok (("hello").toList),
         { files := [((("r/a.htm")).toList, ("hello").toList)],
           rawReads := [("r/a.htm").toList] }) := by
  constructor
  · have h := (c6_loadfile_empty_cached_is_absent glR fsHello
      { files := [((("r/a.htm")).toList, ("cached").toList)], rawReads := [] }
      (("a").toList)).1 (("cached").toList) (by decide) (by decide)
    exact h.trans (by decide)
  · have h := (c6_loadfile_empty_cached_is_absent glR fsHello
      { files := [((("r/a.htm")).toList, [])], rawReads := [] }
      (("a").toList)).2 (by decide) (("hello").toList) (by decide)
    exact h.trans (by decide)

/-- C7: a failure of the compiled-artifact write is fatal: `storeCompiled`
returns the `GRes.fatal` abort (the model of `t.Logger.Panic`), leaving the
disk unchanged; it never produces a normal error value (third conjunct), and
on a writable path it writes the artifact and succeeds. -/
theorem c7_store_compiled_write_failure_fatal (fs : FS) (p txt : Str) :
    ((p ++ CompiledSuffix) ∈ fs.unwritable →
      storeCompiled fs p txt
        = (GRes.fatal (("write ").toList ++ p ++ CompiledSuffix ++
            (": write error").toList), fs))
    ∧ ((p ++ CompiledSuffix) ∉ fs.unwritable →
      storeCompiled fs p txt
        = (GRes.ok (),
           { files := insertA fs.files (p ++ CompiledSuffix) txt,
             unwritable := fs.unwritable }))
    ∧ (∀ e, (storeCompiled fs p txt).1 ≠ GRes.err e) := by
  refine ⟨?_, ?_, ?_⟩
  · intro hmem
    unfold storeCompiled fsWrite
    rw [if_pos hmem]
  · intro hmem
    unfold storeCompiled fsWrite
    rw [if_neg hmem]
  · intro e
    unfold storeCompiled fsWrite
    split <;> simp

/-- Witness for C7: writing the artifact for `r/a.htm` is fatal when
`r/a.htmc` is unwritable, succeeds otherwise, and in neither case is a
normal error returned. -/
theorem c7_store_compiled_write_failure_fatal_witness :
    storeCompiled { files := [], unwritable := [("r/a.htmc").toList] }
        (("r/a.htm").toList) (("x").toList)
      = (GRes.fatal (("write r/a.htmc: write error").toList),
         { files := [], unwritable := [("r/a.htmc").toList] })
    ∧ storeCompiled fsHello (("r/a.htm").toList) (("x").toList)
      = (GRes.ok (),
         { files := insertA fsHello.files (("r/a.htmc").toList) (("x").toList),
           unwritable := [] }) := by
  constructor
  · have h := (c7_store_compiled_write_failure_fatal
      { files := [], unwritable := [("r/a.htmc").toList] }
      (("r/a.htm").toList) (("x").toList)).1 (by decide)
    exact h.trans (by decide)
  · have h := (c7_store_compiled_write_failure_fatal fsHello
      (("r/a.htm").toList) (("x").toList)).2.1 (by decide)
    exact h.trans (by decide)

theorem append_singleton_ne_cons : ∀ (x : Str) (a b : Char), a ≠ b →
    x ++ [a] ≠ b :: x := by
  intro x
  induction x with
  | nil =>
    intro a b hab he
    simp only [List.nil_append, List.cons.injEq] at he
    exact hab he.1
  | cons c xs ih =>
    intro a b hab he
    simp only [List.cons_append, List.cons.injEq] at he
    exact ih a c (fun hac => hab (hac.trans he.1)) he.2

theorem append_cons_ne_cons_append : ∀ (x A B : Str) (u v : Char), u ≠ v →
    x ++ u :: A ≠ v :: (x ++ u :: B) := by
  intro x
  induction x with
  | nil =>
    intro A B u v huv he
    simp only [List.nil_append, List.cons.injEq] at he
    exact huv he.1
  | cons c xs ih =>
    intro A B u v huv he
    simp only [List.cons_append, List.cons.injEq] at he
    exact ih A B u c (fun huc => huv (huc.trans he.1)) he.2

/-- No root-loop candidate for a name ever coincides with a compiled
artifact path (any full path of the same name plus the `c` suffix): the
reason a freshly written artifact can never perturb path resolution. -/
theorem cand_ne_full_append_c (p r full : Str)
    (hfull : full = p ∨ ∃ r2, full = joinPath r2 p) :
    (if isPrefixOfA r p then p else joinPath r p) ≠ full ++ CompiledSuffix := by
  have hc : CompiledSuffix = [Char.ofNat 99] := rfl
  rw [hc]
  split
  · rcases hfull with he1 | ⟨r2, he1⟩ <;> rw [he1]
    · intro he
      have hlen := congrArg List.length he
      simp [joinPath] at hlen
    · intro he
      have hlen := congrArg List.length he
      simp [joinPath] at hlen
      omega
  · rcases hfull with he1 | ⟨r2, he1⟩ <;> rw [he1]
    · intro he
      have hlen := congrArg List.length he
      simp [joinPath] at hlen
      subst hlen
      simp only [joinPath, List.nil_append] at he
      exact append_singleton_ne_cons p (Char.ofNat 99) (Char.ofNat 47)
        (by decide) (by simpa using he.symm)
    · intro he
      have he2 := congrArg List.reverse he
      simp only [joinPath, List.reverse_append, List.reverse_cons,
        List.append_assoc, List.reverse_singleton, List.singleton_append,
        List.cons_append, List.nil_append] at he2
      exact append_cons_ne_cons_append p.reverse r.reverse r2.reverse
        (Char.ofNat 47) (Char.ofNat 99) (by decide)
        (by simpa [List.append_assoc] using he2)
theorem findInRoots_shape (fs : FS) (p : Str) (roots : List Str) :
    findInRoots fs p roots = p ∨ ∃ r, findInRoots fs p roots = joinPath r p := by
  induction roots with
  | nil => left; rfl
  | cons root rest ih =>
    unfold findInRoots
    by_cases hread : isReadable fs
        (if isPrefixOfA root p then p else joinPath root p) = true
    · rw [if_pos hread]
      by_cases hpre : isPrefixOfA root p = true
      · rw [if_pos hpre]
        left; rfl
      · rw [if_neg hpre]
        right; exact ⟨root, rfl⟩
    · rw [if_neg hread]
      exact ih

theorem findInRoots_insertA (fs : FS) (w : List Str) (k v p : Str)
    (roots : List Str)
    (hk : ∀ r, (if isPrefixOfA r p then p else joinPath r p) ≠ k) :
    findInRoots { files := insertA fs.files k v, unwritable := w } p roots
      = findInRoots fs p roots := by
  induction roots with
  | nil => rfl
  | cons root rest ih =>
    unfold findInRoots
    have hr : isReadable { files := insertA fs.files k v, unwritable := w }
          (if isPrefixOfA root p then p else joinPath root p)
        = isReadable fs (if isPrefixOfA root p then p else joinPath root p) := by
      unfold isReadable fsRead
      rw [lookupA_insertA_ne _ _ _ _ (hk root)]
    rw [hr]
    by_cases hread : isReadable fs
        (if isPrefixOfA root p then p else joinPath root p) = true
    · rw [if_pos hread, if_pos hread]
    · rw [if_neg hread, if_neg hread]
      exact ih
/-- Writing a compiled artifact never changes what any name resolves to. -/
theorem toFullPath_insert_artifact (t : Gledki) (fs : FS) (path v : Str) :
    toFullPath t
        { files := insertA fs.files ((toFullPath t fs path) ++ CompiledSuffix) v,
          unwritable := fs.unwritable } path
      = toFullPath t fs path := by
  unfold toFullPath
  apply findInRoots_insertA
  intro r
  exact cand_ne_full_append_c (addExt t path) r _
    (findInRoots_shape fs (addExt t path) t.Roots)

theorem loadCompiled_hit {fs : FS} {cm : List (Str × Str)} {p txt : Str}
    (h : lookupA cm p = some txt) :
    loadCompiled fs cm p = (GRes.ok txt, cm) := by
  unfold loadCompiled
  rw [h]

theorem loadCompiled_ok_lookup {fs : FS} {cm : List (Str × Str)} {p txt : Str}
    {cm1 : List (Str × Str)}
    (h : loadCompiled fs cm p = (GRes.ok txt, cm1)) :
    lookupA cm1 p = some txt := by
  unfold loadCompiled at h
  cases hl : lookupA cm p with
  | some t0 =>
    rw [hl] at h
    simp only [Prod.mk.injEq, GRes.ok.injEq] at h
    rw [← h.2, ← h.1]
    exact hl
  | none =>
    rw [hl] at h
    cases hd : fsRead fs (p ++ CompiledSuffix) with
    | some d =>
      rw [hd] at h
      simp only [Prod.mk.injEq, GRes.ok.injEq] at h
      rw [← h.2, ← h.1]
      exact lookupA_insertA_self cm p d
    | none =>
      rw [hd] at h
      simp at h

theorem loadCompiled_err_cm {fs : FS} {cm : List (Str × Str)} {p e : Str}
    {cm1 : List (Str × Str)}
    (h : loadCompiled fs cm p = (GRes.err e, cm1)) : cm1 = cm := by
  unfold loadCompiled at h
  cases hl : lookupA cm p with
  | some t0 => rw [hl] at h; simp at h
  | none =>
    rw [hl] at h
    cases hd : fsRead fs (p ++ CompiledSuffix) with
    | some d => rw [hd] at h; simp at h
    | none =>
      rw [hd] at h
      simp only [Prod.mk.injEq] at h
      exact h.2.symm

theorem loadCompiled_no_fatal {fs : FS} {cm : List (Str × Str)} {p e : Str}
    {cm1 : List (Str × Str)} :
    loadCompiled fs cm p ≠ (GRes.fatal e, cm1) := by
  unfold loadCompiled
  cases hl : lookupA cm p with
  | some t0 => simp
  | none =>
    cases hd : fsRead fs (p ++ CompiledSuffix) with
    | some d => simp
    | none => simp

theorem storeCompiled_ok_fs {fs : FS} {p txt : Str} {u : Unit} {fs1 : FS}
    (h : storeCompiled fs p txt = (GRes.ok u, fs1)) :
    fs1 = { files := insertA fs.files (p ++ CompiledSuffix) txt,
            unwritable := fs.unwritable } := by
  unfold storeCompiled fsWrite at h
  by_cases hmem : (p ++ CompiledSuffix) ∈ fs.unwritable
  · rw [if_pos hmem] at h
    simp at h
  · rw [if_neg hmem] at h
    simp only [Prod.mk.injEq] at h
    exact h.2.symm

/-- Postcondition of a successful `Compile` with caching on: the in-memory
compiled map holds the returned text under the resolved path, and the disk
is either untouched (a cache hit) or extended with exactly the compiled
artifact for that path. -/
theorem compile_ok_state {t : Gledki} {st : St} {path txt : Str} {st1 : St}
    (h : Compile t true st path = (GRes.ok txt, st1)) :
    lookupA st1.compiled (toFullPath t st.fs path) = some txt
    ∧ (st1.fs = st.fs
       ∨ st1.fs
         = { files :=
               insertA st.fs.files ((toFullPath t st.fs path) ++ CompiledSuffix) txt,
             unwritable := st.fs.unwritable }) := by
  unfold Compile compileFull at h
  rcases hlc : loadCompiled st.fs st.compiled (toFullPath t st.fs path)
    with ⟨r, cm⟩
  rw [hlc] at h
  cases r with
  | fatal e => exact absurd hlc loadCompiled_no_fatal
  | ok text =>
    dsimp only [] at h
    simp only [Prod.mk.injEq, GRes.ok.injEq] at h
    obtain ⟨h1, h2⟩ := h
    subst h1
    rw [← h2]
    refine ⟨loadCompiled_ok_lookup hlc, Or.inl rfl⟩
  | err e =>
    have hcm : cm = st.compiled := loadCompiled_err_cm hlc
    subst hcm
    dsimp only [] at h
    rcases hlf : LoadFile t st.fs st.caches (toFullPath t st.fs path)
      with ⟨r2, c1⟩
    rw [hlf] at h
    cases r2 with
    | err e2 => dsimp only [] at h; simp at h
    | fatal e2 => dsimp only [] at h; simp at h
    | ok text =>
      dsimp only [] at h
      rcases hw : wrap t st.fs c1 text with ⟨r3, c2⟩
      rw [hw] at h
      cases r3 with
      | err e3 => dsimp only [] at h; simp at h
      | fatal e3 => dsimp only [] at h; simp at h
      | ok text2 =>
        dsimp only [] at h
        rcases hip : includePass t st.fs c2 1 text2 with ⟨r4, c3⟩
        rw [hip] at h
        cases r4 with
        | err e4 => dsimp only [] at h; simp at h
        | fatal e4 => dsimp only [] at h; simp at h
        | ok text3 =>
          dsimp only [] at h
          simp only [if_true] at h
          rcases hsc : storeCompiled st.fs (toFullPath t st.fs path) text3
            with ⟨r5, fs1⟩
          rw [hsc] at h
          cases r5 with
          | err e5 => dsimp only [] at h; simp at h
          | fatal e5 => dsimp only [] at h; simp at h
          | ok u =>
            dsimp only [] at h
            simp only [Prod.mk.injEq, GRes.ok.injEq] at h
            obtain ⟨h1, h2⟩ := h
            subst h1
            rw [← h2]
            refine ⟨lookupA_insertA_self _ _ _, Or.inr ?_⟩
            exact storeCompiled_ok_fs hsc

/-- C2: with disk caching enabled (`CacheTemplates = true`), `Compile` is
idempotent on any name whose first compilation succeeded: the second call on
the resulting instance returns byte-identical text and leaves the state
completely unchanged — in particular the raw-read trace gains no entry, so
the raw source file is not re-read (the result is served from the in-memory
compiled cache, the freshly written artifact never perturbing path
resolution by `toFullPath_insert_artifact`). -/
theorem c2_compile_idempotent {t : Gledki} {st : St} {path txt : Str}
    {st1 : St} (h : Compile t true st path = (GRes.ok txt, st1)) :
    Compile t true st1 path = (GRes.ok txt, st1) := by
  obtain ⟨hlook, hfs⟩ := compile_ok_state h
  have hfull : toFullPath t st1.fs path = toFullPath t st.fs path := by
    rcases hfs with he | he
    · rw [he]
    · rw [he]
      exact toFullPath_insert_artifact t st.fs path txt
  unfold Compile
  rw [hfull]
  unfold compileFull
  rw [loadCompiled_hit hlook]

/-- Witness for C2: compiling `a` over `fsHello` once, the second `Compile`
on the resulting state returns the same text `hello` and exactly the same
state. -/
theorem c2_compile_idempotent_witness :
    Compile glR true (Compile glR true stHello (("a").toList)).2 (("a").toList)
      = (GRes.ok (("hello").toList),
         (Compile glR true stHello (("a").toList)).2) :=
  @c2_compile_idempotent glR stHello (("a").toList) (("hello").toList)
    ((Compile glR true stHello (("a").toList)).2) rfl

theorem subIndex_nil_eq (pat : Str) :
    subIndex pat [] = if isPrefixOfA pat [] then some 0 else none := rfl

theorem subIndex_cons_eq (pat : Str) (c : Char) (cs : Str) :
    subIndex pat (c :: cs)
      = if isPrefixOfA pat (c :: cs) then some 0
        else (subIndex pat cs).map (fun n => n + 1) := rfl

theorem subIndex_none_cons {pat : Str} {c : Char} {cs : Str}
    (h : subIndex pat (c :: cs) = none) :
    isPrefixOfA pat (c :: cs) = false ∧ subIndex pat cs = none := by
  rw [subIndex_cons_eq] at h
  split at h
  · cases h
  · next hnp =>
    refine ⟨by simpa using hnp, ?_⟩
    cases hs : subIndex pat cs with
    | none => rfl
    | some m =>
      rw [hs] at h
      simp at h

theorem subIndex_two_char_append (x y : Char) (hxy : y ≠ x) (a r : Str)
    (ha : subIndex [x, y] a = none) :
    subIndex [x, y] (a ++ (x :: y :: r)) = some a.length := by
  induction a with
  | nil =>
    rw [List.nil_append, subIndex_cons_eq, if_pos (by simp [isPrefixOfA])]
    simp
  | cons c cs ih =>
    obtain ⟨hpre, hrest⟩ := subIndex_none_cons ha
    rw [List.cons_append, subIndex_cons_eq, if_neg ?hng]
    · rw [ih hrest]
      simp [List.length_cons]
    case hng =>
      intro hp
      cases cs with
      | nil =>
        simp only [List.nil_append, isPrefixOfA, Bool.and_eq_true,
          decide_eq_true_eq] at hp
        exact hxy hp.2.1
      | cons d ds =>
        simp only [List.cons_append, isPrefixOfA, Bool.and_eq_true,
          decide_eq_true_eq] at hp
        simp only [isPrefixOfA] at hpre
        exact absurd (by simp [hp.1, hp.2.1] :
            (decide (x = c) && (decide (y = d) && true)) = true)
          (by rw [hpre]; simp)

theorem subIndex_one_char_append (y : Char) (a r : Str)
    (ha : subIndex [y] a = none) :
    subIndex [y] (a ++ (y :: r)) = some a.length := by
  induction a with
  | nil =>
    rw [List.nil_append, subIndex_cons_eq, if_pos (by simp [isPrefixOfA])]
    simp
  | cons c cs ih =>
    obtain ⟨hpre, hrest⟩ := subIndex_none_cons ha
    rw [List.cons_append, subIndex_cons_eq, if_neg ?hng]
    · rw [ih hrest]
      simp [List.length_cons]
    case hng =>
      intro hp
      simp only [List.cons_append, isPrefixOfA, Bool.and_eq_true,
        decide_eq_true_eq] at hp
      simp only [isPrefixOfA] at hpre
      exact absurd (by simp [hp.1] : (decide (y = c) && true) = true)
        (by rw [hpre]; simp)

theorem subIndex_nil_none {o : Char} {os : Str} : subIndex (o :: os) [] = none := by
  rw [subIndex_nil_eq, if_neg (by simp [isPrefixOfA])]

/-- The fuel of the non-strict fasttemplate loop is irrelevant as soon as it
is at least the input length (every iteration consumes at least the start
tag). -/
theorem ftExecStdFuel_absorb (o : Char) (os cl : Str)
    (stash : List (Str × Str)) :
    ∀ f1 f2 : Nat, ∀ s : Str, s.length ≤ f1 → s.length ≤ f2 →
      ftExecStdFuel o os cl stash f1 s = ftExecStdFuel o os cl stash f2 s := by
  intro f1
  induction f1 with
  | zero =>
    intro f2 s h1 h2
    have hs : s = [] := List.length_eq_zero.mp (Nat.le_zero.mp h1)
    subst hs
    cases f2 with
    | zero => rfl
    | succ g =>
      unfold ftExecStdFuel
      rw [subIndex_nil_none]
  | succ g1 ih =>
    intro f2 s h1 h2
    cases f2 with
    | zero =>
      have hs : s = [] := List.length_eq_zero.mp (Nat.le_zero.mp h2)
      subst hs
      unfold ftExecStdFuel
      rw [subIndex_nil_none]
    | succ g2 =>
      unfold ftExecStdFuel
      cases hn : subIndex (o :: os) s with
      | none => rfl
      | some n =>
        dsimp only []
        cases hm : subIndex cl (s.drop (n + (o :: os).length)) with
        | none => rfl
        | some m =>
          dsimp only []
          have hb := subIndex_bound hn
          have hlen : ((s.drop (n + (o :: os).length)).drop (m + cl.length)).length
              ≤ s.length - 1 := by
            simp only [List.length_drop, List.length_cons] at hb ⊢
            omega
          rw [ih g2 _ (by omega) (by omega)]

theorem ftExecStdFuel_succ_eq (o : Char) (os cl : Str)
    (stash : List (Str × Str)) (f : Nat) (s : Str) :
    ftExecStdFuel o os cl stash (f + 1) s
      = match subIndex (o :: os) s with
        | none => s
        | some n =>
          match subIndex cl (s.drop (n + (o :: os).length)) with
          | none => s.take n ++ (o :: os) ++ s.drop (n + (o :: os).length)
          | some m =>
            (s.take n ++
              (match lookupA stash ((s.drop (n + (o :: os).length)).take m) with
               | some v => v
               | none =>
                 (o :: os) ++ (s.drop (n + (o :: os).length)).take m ++ cl)) ++
            ftExecStdFuel o os cl stash f
              ((s.drop (n + (o :: os).length)).drop (m + cl.length)) := rfl

/-- One step of the non-strict loop over the default tags on a structured
input: with no open tag occurring in `a` and no close tag in `tg`, the
placeholder holding `tg` right after the literal `a` is the first one found;
it is substituted (or kept verbatim when unknown) and the loop continues on
`rest`. -/
theorem ftExecStdFuel_step_one (stash : List (Str × Str)) (a tg rest : Str)
    (f : Nat) (ha : subIndex tagO a = none) (htg : subIndex tagC tg = none) :
    ftExecStdFuel '$' [Char.ofNat 123] tagC stash (f + 1)
        (a ++ ('$' :: Char.ofNat 123 :: (tg ++ (Char.ofNat 125 :: rest))))
      = a ++ ((match lookupA stash tg with
          | some v => v
          | none => tagO ++ tg ++ tagC) ++
        ftExecStdFuel '$' [Char.ofNat 123] tagC stash f rest) := by
  have h1 : subIndex ('$' :: [Char.ofNat 123])
      (a ++ ('$' :: Char.ofNat 123 :: (tg ++ (Char.ofNat 125 :: rest))))
      = some a.length :=
    subIndex_two_char_append '$' (Char.ofNat 123) (by decide) a
      (tg ++ (Char.ofNat 125 :: rest)) ha
  have h2 : (a ++ ('$' :: Char.ofNat 123 :: (tg ++ (Char.ofNat 125 :: rest)))).drop
      (a.length + (('$' : Char) :: [Char.ofNat 123]).length)
      = tg ++ (Char.ofNat 125 :: rest) := by
    have hs : a ++ ('$' :: Char.ofNat 123 :: (tg ++ (Char.ofNat 125 :: rest)))
        = (a ++ ['$', Char.ofNat 123]) ++ (tg ++ (Char.ofNat 125 :: rest)) := by
      simp
    have hi : a.length + (('$' : Char) :: [Char.ofNat 123]).length
        = (a ++ ['$', Char.ofNat 123]).length := by
      simp
    rw [hs, hi]
    exact List.drop_left _ _
  have h3 : subIndex tagC (tg ++ (Char.ofNat 125 :: rest)) = some tg.length :=
    subIndex_one_char_append (Char.ofNat 125) tg rest htg
  have h4 : (a ++ ('$' :: Char.ofNat 123 :: (tg ++ (Char.ofNat 125 :: rest)))).take
      a.length = a := List.take_left _ _
  have h5 : (tg ++ (Char.ofNat 125 :: rest)).take tg.length = tg :=
    List.take_left _ _
  have h6 : (tg ++ (Char.ofNat 125 :: rest)).drop (tg.length + tagC.length)
      = rest := by
    have hs : tg ++ (Char.ofNat 125 :: rest)
        = (tg ++ [Char.ofNat 125]) ++ rest := by simp
    have hi : tg.length + tagC.length = (tg ++ [Char.ofNat 125]).length := by
      simp [tagC]
    rw [hs, hi]
    exact List.drop_left _ _
  rw [ftExecStdFuel_succ_eq]
  rw [h1]
  dsimp only []
  rw [h2, h3]
  dsimp only []
  rw [h4, h5, h6]
  simp only [tagO, tagC, List.append_assoc, List.cons_append, List.nil_append]

theorem ftExecStd_eq_fuel (stash : List (Str × Str)) (s : Str) :
    ftExecStd tagO tagC stash s
      = ftExecStdFuel '$' [Char.ofNat 123] tagC stash s.length s := rfl

/-- Text without any open-tag occurrence passes through the non-strict
substitution unchanged. -/
theorem ftExecStd_no_op (stash : List (Str × Str)) (s : Str)
    (hs : subIndex tagO s = none) :
    ftExecStd tagO tagC stash s = s := by
  rw [ftExecStd_eq_fuel]
  cases s with
  | nil => rfl
  | cons c cs =>
    rw [List.length_cons]
    unfold ftExecStdFuel
    rw [show subIndex ('$' :: [Char.ofNat 123]) (c :: cs) = none from hs]

/-- The stepping equation of the non-strict substitution at the wrapper
level. -/
theorem ftExecStd_step (stash : List (Str × Str)) (a tg rest : Str)
    (ha : subIndex tagO a = none) (htg : subIndex tagC tg = none) :
    ftExecStd tagO tagC stash (a ++ (tagO ++ (tg ++ (tagC ++ rest))))
      = a ++ ((match lookupA stash tg with
          | some v => v
          | none => tagO ++ tg ++ tagC) ++ ftExecStd tagO tagC stash rest) := by
  rw [ftExecStd_eq_fuel, ftExecStd_eq_fuel]
  have hshape : a ++ (tagO ++ (tg ++ (tagC ++ rest)))
      = a ++ ('$' :: Char.ofNat 123 :: (tg ++ (Char.ofNat 125 :: rest))) := rfl
  rw [hshape]
  have hlen : (a ++ ('$' :: Char.ofNat 123 :: (tg ++ (Char.ofNat 125 :: rest)))).length
      = (a.length + tg.length + rest.length + 2) + 1 := by
    simp only [List.length_append, List.length_cons]
    omega
  rw [hlen]
  rw [ftExecStdFuel_step_one stash a tg rest _ ha htg]
  congr 2
  exact ftExecStdFuel_absorb '$' [Char.ofNat 123] tagC stash _ _ rest
    (by omega) (Nat.le_refl _)

theorem findAllWrapsFuel_head {op cl : Str} :
    ∀ (fuel : Nat) (s d w : Str) (l : List (Str × Str)),
      findAllWrapsFuel op cl fuel s = (d, w) :: l →
      findWrap op cl s = some (d, w) := by
  intro fuel
  induction fuel with
  | zero =>
    intro s d w l h
    cases h
  | succ f ih =>
    intro s d w l h
    cases s with
    | nil => cases h
    | cons c rest =>
      unfold findAllWrapsFuel at h
      unfold findWrap
      cases hm : matchWrapAt op cl (c :: rest) with
      | some x =>
        rw [hm] at h
        obtain ⟨x1, x2, x3⟩ := x
        dsimp only [] at h ⊢
        simp only [List.cons.injEq, Prod.mk.injEq] at h
        rw [h.1.1, h.1.2]
      | none =>
        rw [hm] at h
        exact ih rest d w l h

/-- The leftmost entry of the find-all scan is the first match found by
`FindStringSubmatch`. -/
theorem findAllWraps_head {op cl s d w : Str} {l : List (Str × Str)}
    (h : findAllWraps op cl s = (d, w) :: l) :
    findWrap op cl s = some (d, w) :=
  findAllWrapsFuel_head s.length s d w l h

/-- The wrap pass on a body whose first wrapper directive is `dir`
referencing `wpath`, with the wrapper text `w` loaded: the directive is
removed from the (newline-trimmed) body and the body is substituted
non-strictly for `content` in the (newline-trimmed) wrapper. -/
theorem wrap_eq_of_first_match {t : Gledki} {fs : FS} {c : Caches}
    {text dir wpath : Str} {l : List (Str × Str)}
    (hall : findAllWraps t.openTag t.closeTag (trimNL text) = (dir, wpath) :: l)
    {w : Str} {c1 : Caches} (hload : LoadFile t fs c wpath = (GRes.ok w, c1)) :
    wrap t fs c text
      = (GRes.ok (ftExecStd t.openTag t.closeTag
          [(("content").toList, replaceFirst (trimNL text) dir [])] (trimNL w)),
         c1) := by
  unfold wrap
  rw [findAllWraps_head hall]
  dsimp only []
  rw [hload]

/-- C8: on a body holding two (or more) wrapper directives, the wrap pass
honors only the first one: it succeeds, loads only the first referenced
wrapper, removes only the first directive text from the body, and its
result is fully determined by the first directive — the second is not an
error, merely ignored. -/
theorem c8_second_wrapper_ignored (t : Gledki) (fs : FS) (c : Caches)
    (text d1 w1 d2 w2 : Str) (rest : List (Str × Str))
    (hall : findAllWraps t.openTag t.closeTag (trimNL text)
        = (d1, w1) :: (d2, w2) :: rest)
    (w : Str) (c1 : Caches) (hload : LoadFile t fs c w1 = (GRes.ok w, c1)) :
    wrap t fs c text
      = (GRes.ok (ftExecStd t.openTag t.closeTag
          [(("content").toList, replaceFirst (trimNL text) d1 [])] (trimNL w)),
         c1) :=
  wrap_eq_of_first_match hall hload

theorem c8_second_wrapper_ignored_witness :
    wrap glR fsTwoWrap { files := [], rawReads := [] }
        (("$\x7bwrapper layout\x7d$\x7bwrapper lay2\x7dBody").toList)
      = (GRes.ok (("[$\x7bwrapper lay2\x7dBody]").toList),
         { files := [((("r/layout.htm").toList), ("[$\x7bcontent\x7d]").toList)],
           rawReads := [("r/layout.htm").toList] }) :=
  (c8_second_wrapper_ignored glR fsTwoWrap { files := [], rawReads := [] }
      (("$\x7bwrapper layout\x7d$\x7bwrapper lay2\x7dBody").toList)
      (("$\x7bwrapper layout\x7d").toList) (("layout").toList)
      (("$\x7bwrapper lay2\x7d").toList) (("lay2").toList) []
      (by rfl)
      (("[$\x7bcontent\x7d]").toList)
      { files := [((("r/layout.htm").toList), ("[$\x7bcontent\x7d]").toList)],
        rawReads := [("r/layout.htm").toList] }
      (by rfl)).trans (by rfl)

/-- C3: on a body holding exactly one wrapper directive `dir` referencing
wrapper `wpath` whose (newline-trimmed) content splits as
`a ++ openTag ++ content ++ closeTag ++ b` with no open tag in `a`, wrap
returns `a`, then the body with the directive removed, then the remaining
wrapper tail rendered non-strictly; and any unknown placeholder heading
that tail is preserved verbatim. -/
theorem c3_wrap_content_substitution (t : Gledki) (fs : FS) (c : Caches)
    (text dir wpath : Str)
    (hop : t.openTag = tagO) (hcl : t.closeTag = tagC)
    (hone : findAllWraps t.openTag t.closeTag (trimNL text) = [(dir, wpath)])
    (w : Str) (c1 : Caches) (hload : LoadFile t fs c wpath = (GRes.ok w, c1))
    (a b : Str)
    (hsplit : trimNL w = a ++ (tagO ++ ((("content").toList) ++ (tagC ++ b))))
    (ha : subIndex tagO a = none) :
    wrap t fs c text
      = (GRes.ok (a ++ (replaceFirst (trimNL text) dir []
          ++ ftExecStd tagO tagC
              [(("content").toList, replaceFirst (trimNL text) dir [])] b)), c1)
    ∧ (∀ u rest2, b = tagO ++ (u ++ (tagC ++ rest2)) →
        subIndex tagC u = none → u ≠ ("content").toList →
        subIndex tagO rest2 = none →
        wrap t fs c text
          = (GRes.ok (a ++ (replaceFirst (trimNL text) dir []
              ++ (tagO ++ (u ++ (tagC ++ rest2))))), c1)) := by
  have hw := wrap_eq_of_first_match hone hload
  rw [hop, hcl] at hw
  have hstep := ftExecStd_step
      [(("content").toList, replaceFirst (trimNL text) dir [])]
      a (("content").toList) b ha (by decide)
  have hlk : lookupA [((("content").toList),
      replaceFirst (trimNL text) dir [])] (("content").toList)
      = some (replaceFirst (trimNL text) dir []) := by
    simp [lookupA]
  rw [hlk] at hstep
  dsimp only [] at hstep
  constructor
  · rw [hw, hsplit, hstep]
  · intro u rest2 hb hcu hune hor
    have hstep2 := ftExecStd_step
        [(("content").toList, replaceFirst (trimNL text) dir [])]
        [] u rest2 subIndex_nil_none hcu
    have hlk2 : lookupA [((("content").toList),
        replaceFirst (trimNL text) dir [])] u = none := by
      simp only [lookupA]
      rw [if_neg (fun h => hune h.symm)]
    rw [hlk2] at hstep2
    dsimp only [] at hstep2
    simp only [List.nil_append] at hstep2
    rw [hw, hsplit, hstep, hb, hstep2, ftExecStd_no_op _ rest2 hor]
    simp [List.append_assoc]

theorem c3_wrap_content_substitution_witness :
    wrap glR fsOneWrap { files := [], rawReads := [] }
        (("$\x7bwrapper layout\x7dBody").toList)
      = (GRes.ok (("A Body$\x7btitle\x7d!").toList),
         { files := [((("r/layout.htm").toList),
             ("A $\x7bcontent\x7d$\x7btitle\x7d!").toList)],
           rawReads := [("r/layout.htm").toList] }) := by
  have h := c3_wrap_content_substitution glR fsOneWrap
      { files := [], rawReads := [] }
      (("$\x7bwrapper layout\x7dBody").toList)
      (("$\x7bwrapper layout\x7d").toList) (("layout").toList)
      rfl rfl (by rfl)
      (("A $\x7bcontent\x7d$\x7btitle\x7d!").toList)
      { files := [((("r/layout.htm").toList),
          ("A $\x7bcontent\x7d$\x7btitle\x7d!").toList)],
        rawReads := [("r/layout.htm").toList] }
      (by rfl)
      (("A ").toList) (("$\x7btitle\x7d!").toList)
      (by rfl) (by decide)
  exact (h.2 (("title").toList) (("!").toList) rfl (by decide) (by decide)
      (by decide)).trans (by rfl)

theorem isPrefixOfA_mono {p b : Str} (c : Str)
    (h : isPrefixOfA p b = true) : isPrefixOfA p (b ++ c) = true := by
  induction p generalizing b with
  | nil => rfl
  | cons x xs ih =>
    cases b with
    | nil => exact absurd h (by simp [isPrefixOfA])
    | cons y ys =>
      simp only [isPrefixOfA, Bool.and_eq_true, decide_eq_true_eq] at h
      simp only [List.cons_append, isPrefixOfA, Bool.and_eq_true, decide_eq_true_eq]
      exact ⟨h.1, ih h.2⟩

theorem endsWithA_append_right {a b suf : Str} (h : endsWithA b suf = true) :
    endsWithA (a ++ b) suf = true := by
  unfold endsWithA at h ⊢
  rw [List.reverse_append]
  exact isPrefixOfA_mono _ h

theorem dropPrefixQ_append_isPrefixOfA {a b s r : Str}
    (h : dropPrefixQ (a ++ b) s = some r) : isPrefixOfA a s = true := by
  induction a generalizing s with
  | nil => rfl
  | cons p ps ih =>
    cases s with
    | nil =>
      rw [List.cons_append] at h
      unfold dropPrefixQ at h
      cases h
    | cons c cs =>
      rw [List.cons_append] at h
      unfold dropPrefixQ at h
      split at h
      · next hpc =>
        have := ih h
        simp [isPrefixOfA, hpc, this]
      · cases h

theorem subIndex_none_noPre {pat s : Str} (h : subIndex pat s = none) :
    isPrefixOfA pat s = false := by
  cases s with
  | nil =>
    rw [subIndex_nil_eq] at h
    split at h
    · cases h
    · next hnp => simpa using hnp
  | cons c cs => exact (subIndex_none_cons h).1

theorem matchWrapAt_none_of_noPre {o : Char} {os cl s : Str}
    (h : isPrefixOfA (o :: os) s = false) : matchWrapAt (o :: os) cl s = none := by
  unfold matchWrapAt
  cases hd : dropPrefixQ ((o :: os) ++ ("wrapper").toList) s with
  | none => rfl
  | some s1 =>
    exact absurd (dropPrefixQ_append_isPrefixOfA hd)
      (by rw [h]; exact Bool.false_ne_true)

theorem matchIncludeAt_none_of_noPre {o : Char} {os cl s : Str}
    (h : isPrefixOfA (o :: os) s = false) : matchIncludeAt (o :: os) cl s = none := by
  unfold matchIncludeAt
  cases hd : dropPrefixQ ((o :: os) ++ ("include").toList) s with
  | none => rfl
  | some s1 =>
    exact absurd (dropPrefixQ_append_isPrefixOfA hd)
      (by rw [h]; exact Bool.false_ne_true)

theorem matchIncludeAtT_none_of_noPre {o : Char} {os cl s : Str}
    (h : isPrefixOfA (o :: os) s = false) : matchIncludeAtT (o :: os) cl s = none := by
  unfold matchIncludeAtT
  cases hd : dropPrefixQ ((o :: os) ++ ("include").toList) s with
  | none => rfl
  | some s1 =>
    exact absurd (dropPrefixQ_append_isPrefixOfA hd)
      (by rw [h]; exact Bool.false_ne_true)

theorem tmplsMatchWrapCore_none_of_noPre {o : Char} {os cl s : Str}
    (h : isPrefixOfA (o :: os) s = false) :
    tmplsMatchWrapCore (o :: os) cl s = none := by
  unfold tmplsMatchWrapCore
  cases hd : dropPrefixQ ((o :: os) ++ ("wrapper").toList) s with
  | none => rfl
  | some s1 =>
    exact absurd (dropPrefixQ_append_isPrefixOfA hd)
      (by rw [h]; exact Bool.false_ne_true)

theorem tmplsMatchWrapAt_none_of_no_open {o : Char} {os cl : Str} {c : Char}
    {cs : Str} (h : subIndex (o :: os) (c :: cs) = none) :
    tmplsMatchWrapAt (o :: os) cl (c :: cs) = none := by
  obtain ⟨h1, h2⟩ := subIndex_none_cons h
  show (if c = Char.ofNat 10 then tmplsMatchWrapCore (o :: os) cl cs
      else tmplsMatchWrapCore (o :: os) cl (c :: cs)) = none
  split
  · exact tmplsMatchWrapCore_none_of_noPre (subIndex_none_noPre h2)
  · exact tmplsMatchWrapCore_none_of_noPre h1

theorem findWrap_none_of_no_open {o : Char} {os cl : Str} :
    ∀ s : Str, subIndex (o :: os) s = none → findWrap (o :: os) cl s = none := by
  intro s
  induction s with
  | nil => intro h; rfl
  | cons c cs ih =>
    intro h
    obtain ⟨h1, h2⟩ := subIndex_none_cons h
    unfold findWrap
    rw [matchWrapAt_none_of_noPre h1]
    exact ih h2

theorem tmplsFindWrap_none_of_no_open {o : Char} {os cl : Str} :
    ∀ s : Str, subIndex (o :: os) s = none → tmplsFindWrap (o :: os) cl s = none := by
  intro s
  induction s with
  | nil => intro h; rfl
  | cons c cs ih =>
    intro h
    obtain ⟨h1, h2⟩ := subIndex_none_cons h
    unfold tmplsFindWrap
    rw [tmplsMatchWrapAt_none_of_no_open h]
    exact ih h2

theorem findAllIncludesFuel_nil_of_no_open {o : Char} {os cl : Str} :
    ∀ (f : Nat) (s : Str), subIndex (o :: os) s = none →
      findAllIncludesFuel (o :: os) cl f s = [] := by
  intro f
  induction f with
  | zero => intro s h; rfl
  | succ f ih =>
    intro s h
    cases s with
    | nil => rfl
    | cons c cs =>
      obtain ⟨h1, h2⟩ := subIndex_none_cons h
      unfold findAllIncludesFuel
      rw [matchIncludeAt_none_of_noPre h1]
      exact ih cs h2

theorem findAllIncludes_nil_of_no_open {o : Char} {os cl : Str} (s : Str)
    (h : subIndex (o :: os) s = none) : findAllIncludes (o :: os) cl s = [] :=
  findAllIncludesFuel_nil_of_no_open s.length s h

theorem findAllIncludesTFuel_nil_of_no_open {o : Char} {os cl : Str} :
    ∀ (f : Nat) (s : Str), subIndex (o :: os) s = none →
      findAllIncludesTFuel (o :: os) cl f s = [] := by
  intro f
  induction f with
  | zero => intro s h; rfl
  | succ f ih =>
    intro s h
    cases s with
    | nil => rfl
    | cons c cs =>
      obtain ⟨h1, h2⟩ := subIndex_none_cons h
      unfold findAllIncludesTFuel
      rw [matchIncludeAtT_none_of_noPre h1]
      exact ih cs h2

theorem findAllIncludesT_nil_of_no_open {o : Char} {os cl : Str} (s : Str)
    (h : subIndex (o :: os) s = none) : findAllIncludesT (o :: os) cl s = [] :=
  findAllIncludesTFuel_nil_of_no_open s.length s h

theorem includeRun_succ_no_matches (t : Gledki) (fs : FS) (f : Nat) (c : Caches)
    (d : Nat) (text : Str)
    (h : findAllIncludes t.openTag t.closeTag text = []) :
    includeRun t fs (f + 1) c d text = (GRes.ok text, c) := by
  unfold includeRun
  rw [h]

theorem tmplsIncludeRun_succ_no_matches (t : Tmpls) (fs : FS) (f : Nat)
    (c : Caches) (d : Nat) (text : Str)
    (h : findAllIncludesT t.openTag t.closeTag text = []) :
    TmplsIncludeRun t fs (f + 1) c d text = (GRes.ok text, c) := by
  unfold TmplsIncludeRun
  rw [h]

/-- C9 (amended): the claimed full behavioral equivalence of the two
variants fails (see the counterexample on a hyphenated include path), but
on the common core it holds: with a one-element root list and identical
configuration, on a template whose resolved file holds text with no
open-tag occurrence (hence no directive and no placeholder) and no trailing
newline, with cold raw and compiled caches, no on-disk artifact, and a
writable artifact path, `Gledki.Compile` (caching on) and `Tmpls.Compile`
return the same text and leave the identical state: same raw-file cache and
read trace, same compiled map, and the same disk with the artifact
written. -/
theorem c9_single_root_agreement (g : Gledki) (m : Tmpls) (st : St)
    (name root content P : Str) (o : Char) (os : Str) (fs1 : FS)
    (hop : g.openTag = o :: os) (hopm : m.openTag = g.openTag)
    (hclm : m.closeTag = g.closeTag)
    (hroots : g.Roots = [root]) (hrootm : m.root = root)
    (hext : m.Ext = g.Ext) (hlim : m.IncludeLimit = g.IncludeLimit)
    (hP : P = joinPath root (addExt g name))
    (hnp : isPrefixOfA root (addExt g name) = false)
    (hdisk : fsRead st.fs P = some content)
    (hnl : trimNL content = content)
    (hsub : subIndex (o :: os) content = none)
    (hcm : lookupA st.compiled P = none)
    (hart : fsRead st.fs (P ++ CompiledSuffix) = none)
    (hcf : lookupA st.caches.files P = none)
    (hw : fsWrite st.fs (P ++ CompiledSuffix) content = some fs1) :
    Compile g true st name
      = (GRes.ok content,
         { fs := fs1,
           caches := { files := insertA st.caches.files P content,
                       rawReads := st.caches.rawReads ++ [P] },
           compiled := insertA st.compiled P content })
    ∧ TmplsCompile m st name = Compile g true st name := by
  have haddE : endsWithA (addExt g name) g.Ext = true := by
    unfold addExt
    split
    · next h => exact h
    · exact endsWithA_append name g.Ext
  have hPext : endsWithA P g.Ext = true := by
    rw [hP]
    exact endsWithA_append_right (a := root) (b := '/' :: addExt g name)
      (endsWithA_append_right (a := ['/']) (b := addExt g name) haddE)
  have hpreP : isPrefixOfA root P = true := by
    rw [hP]
    exact isPrefixOfA_append_self root ('/' :: addExt g name)
  have hfullG : toFullPath g st.fs name = P := by
    unfold toFullPath
    rw [hroots]
    unfold findInRoots
    rw [hnp, ← hP]
    simp [isReadable, hdisk]
  have hfullT : TmplsToFullPath m name = P := by
    unfold TmplsToFullPath
    rw [hext, hrootm]
    rw [show (if endsWithA name g.Ext then name else name ++ g.Ext)
        = addExt g name from rfl]
    rw [hnp, ← hP]
    simp
  have haddP : addExt g P = P := by
    unfold addExt
    rw [hPext]
    simp
  have hPP : toFullPath g st.fs P = P := by
    unfold toFullPath
    rw [hroots, haddP]
    unfold findInRoots
    rw [hpreP]
    simp [isReadable, hdisk]
  have hfullTP : TmplsToFullPath m P = P := by
    unfold TmplsToFullPath
    rw [hext, hPext]
    simp [hrootm, hpreP]
  have hlc : loadCompiled st.fs st.compiled P
      = (GRes.err ((("compiled file: open ").toList ++ P ++ CompiledSuffix)),
         st.compiled) := by
    unfold loadCompiled
    rw [hcm]
    dsimp only []
    rw [hart]
  have hlf : LoadFile g st.fs st.caches P
      = (GRes.ok content,
         { files := insertA st.caches.files P content,
           rawReads := st.caches.rawReads ++ [P] }) := by
    unfold LoadFile
    rw [hPP, hcf]
    dsimp only []
    unfold loadFileDisk
    rw [hdisk]
  have hwrap : wrap g st.fs
      { files := insertA st.caches.files P content,
        rawReads := st.caches.rawReads ++ [P] } content
      = (GRes.ok content,
         { files := insertA st.caches.files P content,
           rawReads := st.caches.rawReads ++ [P] }) := by
    unfold wrap
    rw [hnl, hop, findWrap_none_of_no_open content hsub]
  have hinc : includePass g st.fs
      { files := insertA st.caches.files P content,
        rawReads := st.caches.rawReads ++ [P] } 1 content
      = (GRes.ok content,
         { files := insertA st.caches.files P content,
           rawReads := st.caches.rawReads ++ [P] }) := by
    unfold includePass
    refine includeRun_succ_no_matches g st.fs g.IncludeLimit _ 1 content ?_
    rw [hop]
    exact findAllIncludes_nil_of_no_open content hsub
  have hst : storeCompiled st.fs P content = (GRes.ok (), fs1) := by
    unfold storeCompiled
    rw [hw]
  have hC : compileFull g true st P
      = (GRes.ok content,
         { fs := fs1,
           caches := { files := insertA st.caches.files P content,
                       rawReads := st.caches.rawReads ++ [P] },
           compiled := insertA st.compiled P content }) := by
    unfold compileFull
    rw [hlc]
    dsimp only []
    rw [hlf]
    dsimp only []
    rw [hwrap]
    dsimp only []
    rw [hinc]
    dsimp only []
    rw [if_pos rfl, hst]
  have hTlc : TmplsLoadCompiled st.fs st.compiled P
      = (GRes.err ((("File ").toList ++ P ++ CompiledSuffix ++
          (" could not be read!").toList)), st.compiled) := by
    unfold TmplsLoadCompiled
    rw [hcm]
    dsimp only []
    rw [hart]
  have hTlf : TmplsLoadFile m st.fs st.caches P
      = (GRes.ok content,
         { files := insertA st.caches.files P content,
           rawReads := st.caches.rawReads ++ [P] }) := by
    unfold TmplsLoadFile
    rw [hfullTP, hcf]
    dsimp only []
    unfold tmplsLoadFileDisk
    rw [hdisk]
  have hTwrap : TmplsWrap m st.fs
      { files := insertA st.caches.files P content,
        rawReads := st.caches.rawReads ++ [P] } content
      = (GRes.ok content,
         { files := insertA st.caches.files P content,
           rawReads := st.caches.rawReads ++ [P] }) := by
    unfold TmplsWrap
    rw [hopm, hop, tmplsFindWrap_none_of_no_open content hsub]
  have hTinc : TmplsIncludePass m st.fs
      { files := insertA st.caches.files P content,
        rawReads := st.caches.rawReads ++ [P] } 1 content
      = (GRes.ok content,
         { files := insertA st.caches.files P content,
           rawReads := st.caches.rawReads ++ [P] }) := by
    unfold TmplsIncludePass
    refine tmplsIncludeRun_succ_no_matches m st.fs m.IncludeLimit _ 1 content ?_
    rw [hopm, hop]
    exact findAllIncludesT_nil_of_no_open content hsub
  have hT : TmplsCompileFull m st P
      = (GRes.ok content,
         { fs := fs1,
           caches := { files := insertA st.caches.files P content,
                       rawReads := st.caches.rawReads ++ [P] },
           compiled := insertA st.compiled P content }) := by
    unfold TmplsCompileFull
    rw [hTlc]
    dsimp only []
    rw [hTlf]
    dsimp only []
    rw [hTwrap]
    dsimp only []
    rw [hTinc]
    dsimp only []
    rw [hst]
  constructor
  · unfold Compile
    rw [hfullG, hC]
  · unfold TmplsCompile Compile
    rw [hfullT, hfullG, hT, hC]

theorem c9_single_root_agreement_witness :
    Compile glR true stHello (("a").toList)
      = (GRes.ok (("hello").toList),
         { fs := { files := [((("r/a.htm").toList), ("hello").toList),
               ((("r/a.htmc").toList), ("hello").toList)], unwritable := [] },
           caches := { files := [((("r/a.htm").toList), ("hello").toList)],
                       rawReads := [("r/a.htm").toList] },
           compiled := [((("r/a.htm").toList), ("hello").toList)] })
    ∧ TmplsCompile tmR stHello (("a").toList)
        = Compile glR true stHello (("a").toList) :=
  c9_single_root_agreement glR tmR stHello (("a").toList) (("r").toList)
    (("hello").toList) (("r/a.htm").toList) '$' [Char.ofNat 123]
    { files := [((("r/a.htm").toList), ("hello").toList),
        ((("r/a.htmc").toList), ("hello").toList)], unwritable := [] }
    rfl rfl rfl rfl rfl rfl rfl rfl (by decide) rfl rfl (by decide) rfl rfl rfl
    rfl
